import Mathlib

/-!
Verification of the dependency-resolution and initialization engine of the
`singleton-provider` / `singleton-service` repository.

Providers are identified by natural numbers.  The static dependency graph
(`__provider_dependencies__` / `_dependencies`, one Python `set` per provider
class, empty by default) is modelled as an association list from a provider id
to the list of its declared dependencies; `depsOf` deduplicates, mirroring the
fact that the Python attribute is a `set` (built by `requires(*deps)` via
`set(dependencies)`).

The recursive graph walks of `_internal/_utils.py` (equal, up to renamings, to
those in `_internal/_provider.py`, `base_provider.py` and `base_service.py`)
are embedded with an explicit fuel argument; all theorems about them are
stated for any fuel at least a concrete sufficient bound.
-/

namespace SingletonProvider

/-- A dependency graph: provider id ↦ declared dependencies. -/
abbrev Graph := List (Nat × List Nat)

/-- `__provider_dependencies__` of a provider: a Python `set`, so deduplicated;
providers without an entry have the inherited default `set()`. -/
def depsOf (G : Graph) (n : Nat) : List Nat :=
  ((G.lookup n).getD []).dedup

theorem depsOf_nodup (G : Graph) (n : Nat) : (depsOf G n).Nodup :=
  List.nodup_dedup _

/-- All provider ids mentioned by the graph, together with a distinguished
root `p`.  Every node reachable from `p` belongs to this list. -/
def univ (G : Graph) (p : Nat) : List Nat :=
  p :: G.foldr (fun e acc => e.1 :: e.2 ++ acc) []

theorem mem_univ_root (G : Graph) (p : Nat) : p ∈ univ G p := by
  simp [univ]

theorem depsOf_subset_univ (G : Graph) (p n : Nat) :
    ∀ d ∈ depsOf G n, d ∈ univ G p := by
  intro d hd
  unfold depsOf at hd
  rw [List.mem_dedup] at hd
  unfold univ
  rw [List.mem_cons]
  right
  induction G with
  | nil => simp [List.lookup] at hd
  | cons e G ih =>
    simp only [List.foldr, List.mem_cons, List.mem_append]
    cases h : (n == e.1) with
    | true =>
      simp only [List.lookup, h, Option.getD_some] at hd
      exact Or.inl (Or.inr hd)
    | false =>
      simp only [List.lookup, h] at hd
      exact Or.inr (ih hd)

/-- Add an element to a list used as a set (no-op when already present). -/
def setAdd (s : List Nat) (x : Nat) : List Nat :=
  if x ∈ s then s else s ++ [x]

/-- Union of two lists used as sets. -/
def setUnion (s t : List Nat) : List Nat :=
  t.foldl setAdd s

theorem mem_setAdd {s : List Nat} {x y : Nat} :
    y ∈ setAdd s x ↔ y ∈ s ∨ y = x := by
  unfold setAdd
  split
  · constructor
    · exact fun h => Or.inl h
    · rintro (h | rfl)
      · exact h
      · assumption
  · simp [List.mem_append]

theorem setAdd_nodup {s : List Nat} (h : s.Nodup) (x : Nat) :
    (setAdd s x).Nodup := by
  unfold setAdd
  split
  · exact h
  · simpa [List.nodup_append] using ⟨h, by assumption⟩

theorem mem_setUnion {s t : List Nat} {y : Nat} :
    y ∈ setUnion s t ↔ y ∈ s ∨ y ∈ t := by
  induction t generalizing s with
  | nil => simp [setUnion]
  | cons a t ih =>
    unfold setUnion at *
    simp only [List.foldl]
    rw [ih]
    rw [mem_setAdd]
    constructor
    · rintro ((h | rfl) | h) <;> simp [*]
    · rintro (h | h)
      · exact Or.inl (Or.inl h)
      · rcases List.mem_cons.mp h with rfl | h
        · exact Or.inl (Or.inr rfl)
        · exact Or.inr h

theorem setUnion_nodup {s t : List Nat} (h : s.Nodup) : (setUnion s t).Nodup := by
  induction t generalizing s with
  | nil => exact h
  | cons a t ih =>
    unfold setUnion at *
    exact ih (setAdd_nodup h a)

/-- Payload of the `CircularDependency` exception: the provider at which the
cycle was found (`provider=cls.__name__`) and the contents of the DFS
recursion stack at detection time (`recursion_stack=[...]`). -/
abbrev CircErr := Nat × List Nat

/-- Embedding of `_raise_on_circular_dependencies` (`_utils.py` lines 39-64):
a depth-first search carrying a `visited` set and the current `recursion_stack`
(modelled as the list of active calls, innermost first; the Python code keeps
it as a set, so only its membership and contents are observable).  The node is
first tested against the recursion stack (raising `CircularDependency` when
present), then against `visited` (returning when already fully explored);
otherwise it is added to both, its declared dependencies are traversed in
order (the inner fold, threading the mutated `visited` set and propagating a
raise), and it is removed from the stack on exit.  `none` models fuel
exhaustion and is unreachable for fuel at least `(univ G p).length + 1`. -/
def depthFirst (G : Graph) : Nat → Nat → List Nat → List Nat →
    Option (Except CircErr (List Nat))
  | 0, _, _, _ => none
  | fuel + 1, c, visited, stack =>
    if c ∈ stack then some (.error (c, stack))
    else if c ∈ visited then some (.ok visited)
    else
      (depsOf G c).foldl
        (fun acc d =>
          match acc with
          | none => none
          | some (.error e) => some (.error e)
          | some (.ok v) => depthFirst G fuel d v (c :: stack))
        (some (.ok (c :: visited)))

/-- The `for dep in cls.__provider_dependencies__` loop of
`_raise_on_circular_dependencies`, threading the mutated `visited` set. -/
def depthFirstList (G : Graph) (fuel : Nat) (ds : List Nat)
    (visited stack : List Nat) : Option (Except CircErr (List Nat)) :=
  ds.foldl
    (fun acc d =>
      match acc with
      | none => none
      | some (.error e) => some (.error e)
      | some (.ok v) => depthFirst G fuel d v stack)
    (some (.ok visited))

theorem depthFirst_succ (G : Graph) (fuel : Nat) (c : Nat)
    (visited stack : List Nat) :
    depthFirst G (fuel + 1) c visited stack =
      if c ∈ stack then some (.error (c, stack))
      else if c ∈ visited then some (.ok visited)
      else depthFirstList G fuel (depsOf G c) (c :: visited) (c :: stack) :=
  rfl

theorem dfsFold_none (G : Graph) (fuel : Nat) (stack : List Nat) :
    ∀ ds : List Nat,
      ds.foldl
        (fun (acc : Option (Except CircErr (List Nat))) (d : Nat) =>
          match acc with
          | none => none
          | some (Except.error e) => some (Except.error e)
          | some (Except.ok v) => depthFirst G fuel d v stack)
        none = none := by
  intro ds
  induction ds with
  | nil => rfl
  | cons d ds ih => exact ih

theorem dfsFold_error (G : Graph) (fuel : Nat) (stack : List Nat)
    (e : CircErr) : ∀ ds : List Nat,
      ds.foldl
        (fun (acc : Option (Except CircErr (List Nat))) (d : Nat) =>
          match acc with
          | none => none
          | some (Except.error e) => some (Except.error e)
          | some (Except.ok v) => depthFirst G fuel d v stack)
        (some (Except.error e)) = some (Except.error e) := by
  intro ds
  induction ds with
  | nil => rfl
  | cons d ds ih => exact ih

theorem depthFirstList_nil (G : Graph) (fuel : Nat) (visited stack : List Nat) :
    depthFirstList G fuel [] visited stack = some (.ok visited) := rfl

theorem depthFirstList_cons (G : Graph) (fuel : Nat) (d : Nat) (ds : List Nat)
    (visited stack : List Nat) :
    depthFirstList G fuel (d :: ds) visited stack =
      match depthFirst G fuel d visited stack with
      | none => none
      | some (.error e) => some (.error e)
      | some (.ok visited') => depthFirstList G fuel ds visited' stack := by
  unfold depthFirstList
  rcases hr : depthFirst G fuel d visited stack with _ | r
  · simp only [List.foldl, hr]
    exact dfsFold_none G fuel stack ds
  · rcases r with e | v
    · simp only [List.foldl, hr]
      exact dfsFold_error G fuel stack e ds
    · simp only [List.foldl, hr]

/-- Embedding of `_get_all_dependencies` (`_utils.py` lines 67-71): the direct
dependency set of `c` unioned with the recursively computed dependency sets of
each direct dependency.  There is no `visited` set, exactly as in the source;
the recursion terminates only on acyclic inputs, which the fuel argument makes
explicit (`none` = fuel exhaustion). -/
def getAllDependencies (G : Graph) : Nat → Nat → Option (List Nat)
  | 0, _ => none
  | fuel + 1, c =>
    (depsOf G c).foldl
      (fun acc d =>
        match acc, getAllDependencies G fuel d with
        | none, _ => none
        | some _, none => none
        | some s, some sd => some (setUnion s sd))
      (some (depsOf G c))

/-- The `for dep in cls.__provider_dependencies__: deps.update(...)` loop. -/
def getAllDependenciesList (G : Graph) (fuel : Nat) (ds acc : List Nat) :
    Option (List Nat) :=
  ds.foldl
    (fun acc d =>
      match acc, getAllDependencies G fuel d with
      | none, _ => none
      | some _, none => none
      | some s, some sd => some (setUnion s sd))
    (some acc)

theorem getAllDependencies_succ (G : Graph) (fuel : Nat) (c : Nat) :
    getAllDependencies G (fuel + 1) c =
      getAllDependenciesList G fuel (depsOf G c) (depsOf G c) := rfl

theorem gadFold_none (G : Graph) (fuel : Nat) : ∀ ds : List Nat,
    ds.foldl
      (fun (acc : Option (List Nat)) (d : Nat) =>
        match acc, getAllDependencies G fuel d with
        | none, _ => none
        | some _, none => none
        | some s, some sd => some (setUnion s sd))
      none = none := by
  intro ds
  induction ds with
  | nil => rfl
  | cons d ds ih =>
    simp only [List.foldl]
    rcases getAllDependencies G fuel d with _ | sd
    · exact ih
    · exact ih

theorem getAllDependenciesList_nil (G : Graph) (fuel : Nat) (acc : List Nat) :
    getAllDependenciesList G fuel [] acc = some acc := rfl

theorem getAllDependenciesList_cons (G : Graph) (fuel : Nat) (d : Nat)
    (ds acc : List Nat) :
    getAllDependenciesList G fuel (d :: ds) acc =
      match getAllDependencies G fuel d with
      | none => none
      | some s => getAllDependenciesList G fuel ds (setUnion acc s) := by
  unfold getAllDependenciesList
  rcases hr : getAllDependencies G fuel d with _ | sd
  · simp only [List.foldl, hr]
    exact gadFold_none G fuel ds
  · simp only [List.foldl, hr]

/-- `b` is reachable from `a` by a non-empty chain of declared-dependency
edges: the transitive closure of the dependency relation. -/
inductive DepPath (G : Graph) : Nat → Nat → Prop
  | base {a b : Nat} (h : b ∈ depsOf G a) : DepPath G a b
  | cons {a b c : Nat} (h : b ∈ depsOf G a) (t : DepPath G b c) : DepPath G a c

/-- Reflexive-transitive reachability. -/
def ReachStar (G : Graph) (a b : Nat) : Prop :=
  b = a ∨ DepPath G a b

/-- The dependency graph reachable from `p` is acyclic. -/
def AcyclicFrom (G : Graph) (p : Nat) : Prop :=
  ∀ x, ReachStar G p x → ¬ DepPath G x x

/-- A non-empty dependency path from `a` to `b` all of whose nodes (endpoints
included) lie in the set `S`. -/
inductive DepPathIn (G : Graph) (S : List Nat) : Nat → Nat → Prop
  | base {a b : Nat} (ha : a ∈ S) (hb : b ∈ S) (h : b ∈ depsOf G a) :
      DepPathIn G S a b
  | cons {a b c : Nat} (ha : a ∈ S) (h : b ∈ depsOf G a)
      (t : DepPathIn G S b c) : DepPathIn G S a c

theorem DepPath.snoc {G : Graph} {a b c : Nat} (h : DepPath G a b)
    (hc : c ∈ depsOf G b) : DepPath G a c := by
  induction h with
  | base h => exact .cons h (.base hc)
  | cons h _ ih => exact .cons h (ih hc)

theorem DepPath.trans_path {G : Graph} {a b c : Nat} (h1 : DepPath G a b)
    (h2 : DepPath G b c) : DepPath G a c := by
  induction h1 with
  | base h => exact .cons h h2
  | cons h _ ih => exact .cons h (ih h2)

theorem DepPathIn.toDepPath {G : Graph} {S : List Nat} {a b : Nat}
    (h : DepPathIn G S a b) : DepPath G a b := by
  induction h with
  | base _ _ h => exact .base h
  | cons _ h _ ih => exact .cons h ih

/-- The `graph = defaultdict(set)` built by `_get_initialization_order`
(`_utils.py` lines 96-102): for every `provider` in the closure and every
`dep` of it, `graph[dep].add(provider)`.  Missing keys default to the empty
set. -/
def buildAdj (G : Graph) (closure : List Nat) : Nat → List Nat :=
  closure.foldl
    (fun g p =>
      (depsOf G p).foldl
        (fun g d => fun n => if n = d then setAdd (g d) p else g n) g)
    (fun _ => [])

/-- The `in_degree = defaultdict(int)` of `_get_initialization_order`:
`in_degree[provider] += 1` once per declared dependency of each closure
member.  Kept as an integer, as in Python, so that decrements below zero are
representable. -/
def buildInDeg (G : Graph) (closure : List Nat) : Nat → Int :=
  closure.foldl
    (fun f p =>
      (depsOf G p).foldl
        (fun f _ => fun n => if n = p then f p + 1 else f n) f)
    (fun _ => 0)

/-- The body of `for dependent in graph[provider]`: decrement the dependent's
in-degree and enqueue it when the count reaches zero. -/
def kahnStep (acc : List Nat × (Nat → Int)) (dep : Nat) :
    List Nat × (Nat → Int) :=
  let f2 : Nat → Int := fun n => if n = dep then acc.2 dep - 1 else acc.2 n
  if f2 dep = 0 then (acc.1 ++ [dep], f2) else (acc.1, f2)

/-- One pass over the dependents of a popped provider. -/
def kahnVisit (adjacent : List Nat) (queue : List Nat) (inDeg : Nat → Int) :
    List Nat × (Nat → Int) :=
  adjacent.foldl kahnStep (queue, inDeg)

/-- The `while queue` loop of `_get_initialization_order` (lines 105-115):
pop the front of the queue, append it to the result, and process its
dependents.  Fuel bounds the number of iterations; the caller passes
`closure.length + 1`, which suffices whenever the loop can drain the queue. -/
def kahnLoop (g : Nat → List Nat) : Nat → List Nat → (Nat → Int) →
    List Nat → List Nat
  | 0, _, _, result => result
  | _ + 1, [], _, result => result
  | fuel + 1, q :: queue, inDeg, result =>
    let s := kahnVisit (g q) queue inDeg
    kahnLoop g fuel s.1 s.2 (result ++ [q])

/-- Embedding of `_get_initialization_order` (`_utils.py` lines 74-125):
compute the transitive dependency set, add the requested provider itself,
build the dependent-adjacency and in-degree tables, seed the queue with
zero-in-degree members, run Kahn's algorithm, and fail (the
`InitializationOrderMismatch` raise) when the result misses part of the
closure.  `none` covers both that raise and fuel exhaustion of the closure
computation. -/
def getInitializationOrder (G : Graph) (fuel : Nat) (c : Nat) :
    Option (List Nat) :=
  match getAllDependencies G fuel c with
  | none => none
  | some allDeps =>
    let closure := setAdd allDeps c
    let g := buildAdj G closure
    let inDeg := buildInDeg G closure
    let queue := closure.filter (fun p => inDeg p == 0)
    let result := kahnLoop g (closure.length + 1) queue inDeg []
    if result.length = closure.length then some result else none

/-- Shape of the DFS recursion stack during `_raise_on_circular_dependencies`
started at root `p`: innermost call first, each entry a declared dependency of
the one below it, outermost entry the root. -/
inductive IsStack (G : Graph) (p : Nat) : List Nat → Prop
  | nil : IsStack G p []
  | root : IsStack G p [p]
  | push {a b : Nat} {s : List Nat} (h : a ∈ depsOf G b)
      (t : IsStack G p (b :: s)) : IsStack G p (a :: b :: s)

theorem IsStack.reach {G : Graph} {p : Nat} {s : List Nat}
    (hs : IsStack G p s) : ∀ y ∈ s, ReachStar G p y := by
  induction hs with
  | nil => intro y hy; cases hy
  | root =>
    intro y hy
    rcases List.mem_singleton.mp hy with rfl
    exact Or.inl rfl
  | push h t ih =>
    intro y hy
    rcases List.mem_cons.mp hy with rfl | hy
    · rcases ih _ (List.mem_cons_self _ _) with hb | hb
      · exact Or.inr (hb ▸ DepPath.base h)
      · exact Or.inr (hb.snoc h)
    · exact ih _ hy

theorem DepPathIn.mono {G : Graph} {S S' : List Nat} {a b : Nat}
    (h : DepPathIn G S a b) (hss : ∀ x ∈ S, x ∈ S') : DepPathIn G S' a b := by
  induction h with
  | base ha hb h => exact .base (hss _ ha) (hss _ hb) h
  | cons ha h _ ih => exact .cons (hss _ ha) h ih

theorem DepPathIn.snoc_in {G : Graph} {S : List Nat} {a b c : Nat}
    (h : DepPathIn G S a b) (hc : c ∈ depsOf G b) (hcS : c ∈ S) :
    DepPathIn G S a c := by
  induction h with
  | base ha hb h => exact .cons ha h (.base hb hcS hc)
  | cons ha h _ ih => exact .cons ha h (ih hc)

/-- Any element strictly below the top of a well-formed DFS stack has a
dependency path, inside the stack, up to the top. -/
theorem IsStack.path_to_top {G : Graph} {p : Nat} {b : Nat} {s : List Nat}
    (hs : IsStack G p (b :: s)) : ∀ c ∈ s, DepPathIn G (b :: s) c b := by
  induction s generalizing b with
  | nil => intro c hc; cases hc
  | cons b' s' ih =>
    intro c hc
    have hstep : b ∈ depsOf G b' := by
      cases hs with
      | push h _ => exact h
    have htail : IsStack G p (b' :: s') := by
      cases hs with
      | push _ t => exact t
    rcases List.mem_cons.mp hc with rfl | hc
    · exact .base (List.mem_cons_of_mem _ (List.mem_cons_self _ _))
        (List.mem_cons_self _ _) hstep
    · have : DepPathIn G (b :: b' :: s') c b' :=
        (ih htail c hc).mono (fun x hx => List.mem_cons_of_mem _ hx)
      exact this.snoc_in hstep (List.mem_cons_self _ _)

/-- Finding a node on the recursion stack which is a dependency of the top of
the stack exhibits a dependency cycle lying entirely inside the stack. -/
theorem IsStack.cycle {G : Graph} {p : Nat} {b c : Nat} {s : List Nat}
    (hs : IsStack G p (b :: s)) (hdep : c ∈ depsOf G b) (hmem : c ∈ b :: s) :
    DepPathIn G (b :: s) c c := by
  rcases List.mem_cons.mp hmem with rfl | hmem
  · exact .base (List.mem_cons_self _ _) (List.mem_cons_self _ _) hdep
  · exact (hs.path_to_top c hmem).snoc_in hdep (List.mem_cons_of_mem _ hmem)

/-- Admissible entry into the DFS: the root call (empty stack on `p`), or a
recursive call on a declared dependency of the stack's top. -/
def EnteringOk (G : Graph) (p c : Nat) (stack : List Nat) : Prop :=
  (stack = [] ∧ c = p) ∨ ∃ b s', stack = b :: s' ∧ c ∈ depsOf G b

/-- What the `CircularDependency` payload guarantees: the offending provider
is on the reported stack, a dependency cycle through it lies entirely inside
the reported stack, and every reported provider is reachable from the root. -/
def ErrProps (G : Graph) (p : Nat) (e : CircErr) : Prop :=
  e.1 ∈ e.2 ∧ DepPathIn G e.2 e.1 e.1 ∧ ∀ x ∈ e.2, ReachStar G p x

theorem depthFirst_sound (G : Graph) (p : Nat) : ∀ fuel : Nat,
    (∀ c visited stack e, IsStack G p stack → EnteringOk G p c stack →
      depthFirst G fuel c visited stack = some (.error e) → ErrProps G p e) ∧
    (∀ ds visited stack b s' e, IsStack G p stack → stack = b :: s' →
      (∀ d ∈ ds, d ∈ depsOf G b) →
      depthFirstList G fuel ds visited stack = some (.error e) →
      ErrProps G p e) := by
  intro fuel
  induction fuel with
  | zero =>
    constructor
    · intro c visited stack e _ _ h
      simp [depthFirst] at h
    · intro ds visited stack b s' e _ _ _ h
      induction ds generalizing visited with
      | nil => simp [depthFirstList_nil] at h
      | cons d ds _ =>
        rw [depthFirstList_cons] at h
        simp [depthFirst] at h
  | succ fuel ih =>
    have hP : ∀ c visited stack e, IsStack G p stack → EnteringOk G p c stack →
        depthFirst G (fuel + 1) c visited stack = some (.error e) →
        ErrProps G p e := by
      intro c visited stack e hstack hentry h
      rw [depthFirst_succ] at h
      by_cases hcs : c ∈ stack
      · rw [if_pos hcs] at h
        have he : e = (c, stack) := by
          have := Except.error.inj (Option.some.inj h)
          exact this.symm
        subst he
        rcases hentry with ⟨rfl, _⟩ | ⟨b, s', rfl, hdep⟩
        · cases hcs
        · refine ⟨hcs, ?_, fun x hx => hstack.reach x hx⟩
          exact IsStack.cycle hstack hdep hcs
      · rw [if_neg hcs] at h
        by_cases hcv : c ∈ visited
        · rw [if_pos hcv] at h
          exact absurd (Except.noConfusion (Option.some.inj h)) (by intro h; exact h)
        · rw [if_neg hcv] at h
          have hstack' : IsStack G p (c :: stack) := by
            rcases hentry with ⟨rfl, rfl⟩ | ⟨b, s', rfl, hdep⟩
            · exact .root
            · exact .push hdep hstack
          exact ih.2 (depsOf G c) (c :: visited) (c :: stack) c stack e hstack'
            rfl (fun d hd => hd) h
    refine ⟨hP, ?_⟩
    intro ds visited stack b s' e hstack hsb hds h
    induction ds generalizing visited with
    | nil => simp [depthFirstList_nil] at h
    | cons d ds ihds =>
      rw [depthFirstList_cons] at h
      rcases hr : depthFirst G (fuel + 1) d visited stack with _ | r
      · rw [hr] at h; exact absurd h (by simp)
      · rcases r with e' | v'
        · rw [hr] at h
          have he : e = e' := (Except.error.inj (Option.some.inj h)).symm
          subst he
          exact hP d visited stack e hstack
            (Or.inr ⟨b, s', hsb, hds d (List.mem_cons_self _ _)⟩) hr
        · rw [hr] at h
          exact ihds v' (fun d' hd' => hds d' (List.mem_cons_of_mem _ hd')) h

/-- A list of providers in which every element's declared dependencies occur
strictly earlier (the finish order of a completed, cycle-free DFS). -/
inductive GoodList (G : Graph) : List Nat → Prop
  | nil : GoodList G []
  | snoc {L : List Nat} {c : Nat} (h : GoodList G L)
      (hd : ∀ d ∈ depsOf G c, d ∈ L) : GoodList G (L ++ [c])

theorem GoodList.closed {G : Graph} {L : List Nat} (h : GoodList G L) :
    ∀ x ∈ L, ∀ d ∈ depsOf G x, d ∈ L := by
  induction h with
  | nil => intro x hx; cases hx
  | snoc h hd ih =>
    intro x hx d hdep
    rcases List.mem_append.mp hx with hx | hx
    · exact List.mem_append_left _ (ih x hx d hdep)
    · rcases List.mem_singleton.mp hx with rfl
      exact List.mem_append_left _ (hd d hdep)

/-- Invariant tying the DFS bookkeeping to an ordered list of finished
("black") nodes: `L` enumerates, without repetition and in an order compatible
with the dependency relation, exactly the visited nodes not currently on the
recursion stack. -/
def BlackInv (G : Graph) (visited stack L : List Nat) : Prop :=
  L.Nodup ∧ (∀ x, x ∈ L ↔ (x ∈ visited ∧ x ∉ stack)) ∧ GoodList G L

theorem depthFirst_ok (G : Graph) (p : Nat) : ∀ fuel : Nat,
    (∀ c visited stack visited' L, BlackInv G visited stack L →
      (∀ x ∈ stack, x ∈ visited) → (∀ x ∈ visited, x ∈ univ G p) →
      c ∈ univ G p →
      depthFirst G fuel c visited stack = some (.ok visited') →
      (∀ x ∈ visited, x ∈ visited') ∧ c ∈ visited' ∧ c ∉ stack ∧
      (∀ x ∈ stack, x ∈ visited') ∧ (∀ x ∈ visited', x ∈ univ G p) ∧
      ∃ L', BlackInv G visited' stack L') ∧
    (∀ ds visited stack visited' L, BlackInv G visited stack L →
      (∀ x ∈ stack, x ∈ visited) → (∀ x ∈ visited, x ∈ univ G p) →
      (∀ d ∈ ds, d ∈ univ G p) →
      depthFirstList G fuel ds visited stack = some (.ok visited') →
      (∀ x ∈ visited, x ∈ visited') ∧ (∀ d ∈ ds, d ∈ visited' ∧ d ∉ stack) ∧
      (∀ x ∈ stack, x ∈ visited') ∧ (∀ x ∈ visited', x ∈ univ G p) ∧
      ∃ L', BlackInv G visited' stack L') := by
  intro fuel
  induction fuel with
  | zero =>
    constructor
    · intro c visited stack visited' L _ _ _ _ h
      simp [depthFirst] at h
    · intro ds visited stack visited' L hB hsv hvu _ h
      induction ds generalizing visited with
      | nil =>
        rw [depthFirstList_nil] at h
        obtain rfl : visited = visited' := by
          injection h with h1
          injection h1
        
        refine ⟨fun x hx => hx, ?_, hsv, hvu, L, hB⟩
        intro d hd
        cases hd
      | cons d ds _ =>
        rw [depthFirstList_cons] at h
        simp [depthFirst] at h
  | succ fuel ih =>
    have hP : ∀ c visited stack visited' L, BlackInv G visited stack L →
        (∀ x ∈ stack, x ∈ visited) → (∀ x ∈ visited, x ∈ univ G p) →
        c ∈ univ G p →
        depthFirst G (fuel + 1) c visited stack = some (.ok visited') →
        (∀ x ∈ visited, x ∈ visited') ∧ c ∈ visited' ∧ c ∉ stack ∧
        (∀ x ∈ stack, x ∈ visited') ∧ (∀ x ∈ visited', x ∈ univ G p) ∧
        ∃ L', BlackInv G visited' stack L' := by
      intro c visited stack visited' L hB hsv hvu hcu h
      rw [depthFirst_succ] at h
      by_cases hcs : c ∈ stack
      · rw [if_pos hcs] at h
        exact absurd (Option.some.inj h) (by intro h; cases h)
      · rw [if_neg hcs] at h
        by_cases hcv : c ∈ visited
        · rw [if_pos hcv] at h
          have hv : visited' = visited := (Except.ok.inj (Option.some.inj h)).symm
          subst hv
          exact ⟨fun x hx => hx, hcv, hcs, hsv, hvu, L, hB⟩
        · rw [if_neg hcv] at h
          obtain ⟨hLnd, hLiff, hLgood⟩ := hB
          have hB' : BlackInv G (c :: visited) (c :: stack) L := by
            refine ⟨hLnd, ?_, hLgood⟩
            intro x
            rw [hLiff x]
            constructor
            · rintro ⟨hxv, hxs⟩
              have hxc : x ≠ c := fun hh => hcv (hh ▸ hxv)
              exact ⟨List.mem_cons_of_mem _ hxv,
                fun hh => (List.mem_cons.mp hh).elim hxc hxs⟩
            · rintro ⟨hxv, hxs⟩
              have hxc : x ≠ c := fun hh => hxs (hh ▸ List.mem_cons_self _ _)
              exact ⟨(List.mem_cons.mp hxv).resolve_left hxc,
                fun hh => hxs (List.mem_cons_of_mem _ hh)⟩
          have hsv' : ∀ x ∈ c :: stack, x ∈ c :: visited := by
            intro x hx
            rcases List.mem_cons.mp hx with rfl | hx
            · exact List.mem_cons_self _ _
            · exact List.mem_cons_of_mem _ (hsv x hx)
          have hvu' : ∀ x ∈ c :: visited, x ∈ univ G p := by
            intro x hx
            rcases List.mem_cons.mp hx with rfl | hx
            · exact hcu
            · exact hvu x hx
          obtain ⟨hmono, hds, hstacksub, hvu'', L₂, hL₂nd, hL₂iff, hL₂good⟩ :=
            ih.2 (depsOf G c) (c :: visited) (c :: stack) visited' L hB' hsv'
              hvu' (fun d hd => depsOf_subset_univ G p c d hd) h
          have hcv' : c ∈ visited' :=
            hmono c (List.mem_cons_self _ _)
          refine ⟨fun x hx => hmono x (List.mem_cons_of_mem _ hx), hcv', hcs,
            fun x hx => hstacksub x (List.mem_cons_of_mem _ hx), hvu'', ?_⟩
          refine ⟨L₂ ++ [c], ?_, ?_, ?_⟩
          · have hcL₂ : c ∉ L₂ := by
              intro hc
              exact ((hL₂iff c).mp hc).2 (List.mem_cons_self _ _)
            simpa [List.nodup_append] using ⟨hL₂nd, hcL₂⟩
          · intro x
            constructor
            · intro hx
              rcases List.mem_append.mp hx with hx | hx
              · obtain ⟨hxv, hxs⟩ := (hL₂iff x).mp hx
                exact ⟨hxv, fun hh => hxs (List.mem_cons_of_mem _ hh)⟩
              · rcases List.mem_singleton.mp hx with rfl
                exact ⟨hcv', hcs⟩
            · rintro ⟨hxv, hxs⟩
              by_cases hxc : x = c
              · exact List.mem_append_right _ (by simp [hxc])
              · refine List.mem_append_left _ ((hL₂iff x).mpr ⟨hxv, ?_⟩)
                intro hh
                rcases List.mem_cons.mp hh with hh | hh
                · exact hxc hh
                · exact hxs hh
          · refine GoodList.snoc hL₂good ?_
            intro d hdep
            obtain ⟨hdv, hdns⟩ := hds d hdep
            exact (hL₂iff d).mpr ⟨hdv, hdns⟩
    refine ⟨hP, ?_⟩
    intro ds visited stack visited' L hB hsv hvu hdu h
    induction ds generalizing visited L with
    | nil =>
      rw [depthFirstList_nil] at h
      obtain rfl : visited = visited' := by
        injection h with h1
        injection h1
      
      refine ⟨fun x hx => hx, ?_, hsv, hvu, L, hB⟩
      intro d hd
      cases hd
    | cons d ds ihds =>
      rw [depthFirstList_cons] at h
      rcases hr : depthFirst G (fuel + 1) d visited stack with _ | r
      · rw [hr] at h; exact absurd h (by simp)
      · rcases r with e' | v'
        · rw [hr] at h; exact absurd h (by simp)
        · rw [hr] at h
          obtain ⟨hmono₁, hdv₁, hdns₁, hss₁, hvu₁, L₁, hB₁⟩ :=
            hP d visited stack v' L hB hsv hvu (hdu d (List.mem_cons_self _ _)) hr
          have hsv₁ : ∀ x ∈ stack, x ∈ v' := hss₁
          obtain ⟨hmono₂, hds₂, hss₂, hvu₂, L₂, hB₂⟩ :=
            ihds v' L₁ hB₁ hsv₁ hvu₁
              (fun d' hd' => hdu d' (List.mem_cons_of_mem _ hd')) h
          refine ⟨fun x hx => hmono₂ x (hmono₁ x hx), ?_, hss₂, hvu₂, L₂, hB₂⟩
          intro d' hd'
          rcases List.mem_cons.mp hd' with rfl | hd'
          · exact ⟨hmono₂ d' (hdv₁), hdns₁⟩
          · exact hds₂ d' hd'

theorem nodup_subset_length {s u : List Nat} (hnd : s.Nodup)
    (hsub : ∀ x ∈ s, x ∈ u) : s.length ≤ u.length :=
  (List.subperm_of_subset hnd hsub).length_le

theorem depthFirst_fuel (G : Graph) (p : Nat) : ∀ fuel : Nat,
    (∀ c visited stack, stack.Nodup → (∀ x ∈ stack, x ∈ univ G p) →
      c ∈ univ G p → (univ G p).length + 1 ≤ fuel + stack.length →
      depthFirst G fuel c visited stack ≠ none) ∧
    (∀ ds visited stack, stack.Nodup → (∀ x ∈ stack, x ∈ univ G p) →
      (∀ d ∈ ds, d ∈ univ G p) →
      (univ G p).length + 1 ≤ fuel + stack.length →
      depthFirstList G fuel ds visited stack ≠ none) := by
  intro fuel
  induction fuel with
  | zero =>
    constructor
    · intro c visited stack hnd hsu _ hbound
      have := nodup_subset_length hnd hsu
      omega
    · intro ds visited stack hnd hsu _ hbound
      have := nodup_subset_length hnd hsu
      omega
  | succ fuel ih =>
    have hP : ∀ c visited stack, stack.Nodup → (∀ x ∈ stack, x ∈ univ G p) →
        c ∈ univ G p → (univ G p).length + 1 ≤ (fuel + 1) + stack.length →
        depthFirst G (fuel + 1) c visited stack ≠ none := by
      intro c visited stack hnd hsu hcu hbound
      rw [depthFirst]
      by_cases hcs : c ∈ stack
      · rw [if_pos hcs]; simp
      · rw [if_neg hcs]
        by_cases hcv : c ∈ visited
        · rw [if_pos hcv]; simp
        · rw [if_neg hcv]
          refine ih.2 (depsOf G c) (c :: visited) (c :: stack) ?_ ?_ ?_ ?_
          · exact List.nodup_cons.mpr ⟨hcs, hnd⟩
          · intro x hx
            rcases List.mem_cons.mp hx with rfl | hx
            · exact hcu
            · exact hsu x hx
          · exact fun d hd => depsOf_subset_univ G p c d hd
          · simp only [List.length_cons]
            omega
    refine ⟨hP, ?_⟩
    intro ds visited stack hnd hsu hdu hbound
    induction ds generalizing visited with
    | nil => simp [depthFirstList_nil]
    | cons d ds ihds =>
      rw [depthFirstList_cons]
      rcases hr : depthFirst G (fuel + 1) d visited stack with _ | r
      · exact absurd hr (hP d visited stack hnd hsu (hdu d (List.mem_cons_self _ _)) hbound)
      · rcases r with e | v'
        · simp
        · exact ihds v' (fun d' hd' => hdu d' (List.mem_cons_of_mem _ hd'))


theorem GoodList.idx_lt {G : Graph} {L : List Nat} (h : GoodList G L)
    (hnd : L.Nodup) : ∀ x ∈ L, ∀ d ∈ depsOf G x,
      d ∈ L ∧ L.indexOf d < L.indexOf x := by
  induction h with
  | nil => intro x hx; cases hx
  | @snoc L c hgood hd ih =>
    intro x hx d hdep
    have hnd' := (List.nodup_append.mp hnd).1
    have hcne : c ∉ L := by
      intro hc
      have := (List.nodup_append.mp hnd).2.2
      exact this hc (List.mem_singleton_self _)
    rcases List.mem_append.mp hx with hx | hx
    · obtain ⟨hdL, hlt⟩ := ih hnd' x hx d hdep
      refine ⟨List.mem_append_left _ hdL, ?_⟩
      rw [List.indexOf_append_of_mem hdL, List.indexOf_append_of_mem hx]
      exact hlt
    · rcases List.mem_singleton.mp hx with rfl
      have hdL := hd d hdep
      refine ⟨List.mem_append_left _ hdL, ?_⟩
      rw [List.indexOf_append_of_mem hdL, List.indexOf_append_of_not_mem hcne]
      have := List.indexOf_lt_length.mpr hdL
      omega

theorem GoodList.path_idx_lt {G : Graph} {L : List Nat} (h : GoodList G L)
    (hnd : L.Nodup) : ∀ x ∈ L, ∀ y, DepPath G x y →
      y ∈ L ∧ L.indexOf y < L.indexOf x := by
  intro x hx y hpath
  induction hpath with
  | base hdep => exact h.idx_lt hnd _ hx _ hdep
  | cons hdep _ ih =>
    obtain ⟨hbL, hblt⟩ := h.idx_lt hnd _ hx _ hdep
    obtain ⟨hyL, hylt⟩ := ih hbL
    exact ⟨hyL, lt_trans hylt hblt⟩

theorem GoodList.path_mem {G : Graph} {L : List Nat} (h : GoodList G L) :
    ∀ x ∈ L, ∀ y, DepPath G x y → y ∈ L := by
  intro x hx y hpath
  induction hpath with
  | base hdep => exact h.closed _ hx _ hdep
  | cons hdep _ ih => exact ih (h.closed _ hx _ hdep)

theorem GoodList.acyclic {G : Graph} {L : List Nat} {p : Nat}
    (h : GoodList G L) (hnd : L.Nodup) (hp : p ∈ L) : AcyclicFrom G p := by
  intro x hreach hcyc
  have hxL : x ∈ L := by
    rcases hreach with rfl | hpath
    · exact hp
    · exact h.path_mem _ hp _ hpath
  obtain ⟨_, hlt⟩ := h.path_idx_lt hnd _ hxL _ hcyc
  omega

theorem GoodList.reach_mem {G : Graph} {L : List Nat} {p : Nat}
    (h : GoodList G L) (hp : p ∈ L) : ∀ x, ReachStar G p x → x ∈ L := by
  intro x hreach
  rcases hreach with rfl | hpath
  · exact hp
  · exact h.path_mem _ hp _ hpath

/-- A successful full cycle check yields a dependency-ordered enumeration of
the visited nodes. -/
theorem depthFirst_ok_goodlist {G : Graph} {p : Nat} {fuel : Nat} {v : List Nat}
    (h : depthFirst G fuel p [] [] = some (.ok v)) :
    ∃ L, GoodList G L ∧ L.Nodup ∧ p ∈ L ∧ (∀ x ∈ L, x ∈ univ G p) ∧
      (∀ x, x ∈ L ↔ x ∈ v) := by
  have hB : BlackInv G [] [] [] := by
    refine ⟨List.nodup_nil, ?_, GoodList.nil⟩
    intro x
    simp
  obtain ⟨_, hpv, _, _, hvu, L', hLnd, hLiff, hLgood⟩ :=
    (depthFirst_ok G p fuel).1 p [] [] v [] hB (by intro x hx; cases hx)
      (by intro x hx; cases hx) (mem_univ_root G p) h
  have hiff : ∀ x, x ∈ L' ↔ x ∈ v := by
    intro x
    rw [hLiff x]
    constructor
    · exact fun hh => hh.1
    · exact fun hh => ⟨hh, by intro hc; cases hc⟩
  refine ⟨L', hLgood, hLnd, (hiff p).mpr hpv, ?_, hiff⟩
  intro x hx
  exact hvu x ((hiff x).mp hx)

/-- The cycle check started at `p`, with sufficient fuel, raises
`CircularDependency` exactly when the graph reachable from `p` has a cycle. -/
theorem depthFirst_error_iff {G : Graph} {p : Nat} {fuel : Nat}
    (hfuel : (univ G p).length + 1 ≤ fuel) :
    (∃ e, depthFirst G fuel p [] [] = some (.error e)) ↔ ¬ AcyclicFrom G p := by
  constructor
  · rintro ⟨e, he⟩
    obtain ⟨hmem, hcyc, hreach⟩ :=
      (depthFirst_sound G p fuel).1 p [] [] e .nil (Or.inl ⟨rfl, rfl⟩) he
    intro hacyc
    exact hacyc e.1 (hreach _ hmem) hcyc.toDepPath
  · intro hnacyc
    by_contra hne
    push_neg at hne
    have hnn : depthFirst G fuel p [] [] ≠ none := by
      refine (depthFirst_fuel G p fuel).1 p [] [] List.nodup_nil ?_
        (mem_univ_root G p) (by simpa using hfuel)
      intro x hx; cases hx
    rcases hr : depthFirst G fuel p [] [] with _ | r
    · exact hnn hr
    · rcases r with e | v
      · exact hne e hr
      · obtain ⟨L, hLgood, hLnd, hpL, _, _⟩ := depthFirst_ok_goodlist hr
        exact hnacyc (hLgood.acyclic hLnd hpL)


theorem getAllDependenciesList_sub (G : Graph) :
    ∀ (fuel : Nat) (ds acc r : List Nat),
      getAllDependenciesList G fuel ds acc = some r →
      (∀ x ∈ acc, x ∈ r) ∧
      ∀ d ∈ ds, ∃ s, getAllDependencies G fuel d = some s ∧ ∀ x ∈ s, x ∈ r := by
  intro fuel ds
  induction ds with
  | nil =>
    intro acc r h
    rw [getAllDependenciesList_nil] at h
    obtain rfl : acc = r := by injection h
    exact ⟨fun x hx => hx, by intro d hd; cases hd⟩
  | cons d ds ih =>
    intro acc r h
    rw [getAllDependenciesList_cons] at h
    rcases hr : getAllDependencies G fuel d with _ | sd
    · rw [hr] at h; exact absurd h (by simp)
    · rw [hr] at h
      obtain ⟨hacc, hrest⟩ := ih (setUnion acc sd) r h
      refine ⟨fun x hx => hacc x (mem_setUnion.mpr (Or.inl hx)), ?_⟩
      intro d' hd'
      rcases List.mem_cons.mp hd' with rfl | hd'
      · exact ⟨sd, hr, fun x hx => hacc x (mem_setUnion.mpr (Or.inr hx))⟩
      · exact hrest d' hd'

theorem getAllDependenciesList_mem (G : Graph) :
    ∀ (fuel : Nat) (ds acc r : List Nat),
      getAllDependenciesList G fuel ds acc = some r →
      ∀ x ∈ r, x ∈ acc ∨
        ∃ d ∈ ds, ∃ s, getAllDependencies G fuel d = some s ∧ x ∈ s := by
  intro fuel ds
  induction ds with
  | nil =>
    intro acc r h x hx
    rw [getAllDependenciesList_nil] at h
    obtain rfl : acc = r := by injection h
    exact Or.inl hx
  | cons d ds ih =>
    intro acc r h x hx
    rw [getAllDependenciesList_cons] at h
    rcases hr : getAllDependencies G fuel d with _ | sd
    · rw [hr] at h; exact absurd h (by simp)
    · rw [hr] at h
      rcases ih (setUnion acc sd) r h x hx with hmem | ⟨d', hd', s, hs, hxs⟩
      · rcases mem_setUnion.mp hmem with hmem | hmem
        · exact Or.inl hmem
        · exact Or.inr ⟨d, List.mem_cons_self _ _, sd, hr, hmem⟩
      · exact Or.inr ⟨d', List.mem_cons_of_mem _ hd', s, hs, hxs⟩

theorem getAllDependencies_mem_depPath (G : Graph) :
    ∀ (fuel : Nat) (c : Nat) (r : List Nat),
      getAllDependencies G fuel c = some r → ∀ x ∈ r, DepPath G c x := by
  intro fuel
  induction fuel with
  | zero => intro c r h; simp [getAllDependencies] at h
  | succ fuel ih =>
    intro c r h x hx
    rw [getAllDependencies_succ] at h
    rcases getAllDependenciesList_mem G fuel (depsOf G c) (depsOf G c) r h x hx
      with hmem | ⟨d, hd, s, hs, hxs⟩
    · exact .base hmem
    · exact .cons hd (ih d s hs x hxs)

theorem getAllDependencies_depPath_mem (G : Graph) {c x : Nat}
    (hpath : DepPath G c x) :
    ∀ (fuel : Nat) (r : List Nat),
      getAllDependencies G fuel c = some r → x ∈ r := by
  induction hpath with
  | @base a b hdep =>
    intro fuel r h
    cases fuel with
    | zero => simp [getAllDependencies] at h
    | succ fuel =>
      rw [getAllDependencies_succ] at h
      exact (getAllDependenciesList_sub G fuel _ _ r h).1 b hdep
  | @cons a b c hdep _ ih =>
    intro fuel r h
    cases fuel with
    | zero => simp [getAllDependencies] at h
    | succ fuel =>
      rw [getAllDependencies_succ] at h
      obtain ⟨s, hs, hsub⟩ :=
        (getAllDependenciesList_sub G fuel _ _ r h).2 b hdep
      exact hsub _ (ih fuel s hs)

theorem getAllDependencies_nodup (G : Graph) :
    ∀ (fuel : Nat) (c : Nat) (r : List Nat),
      getAllDependencies G fuel c = some r → r.Nodup := by
  have hlist : ∀ (fuel : Nat) (ds acc r : List Nat), acc.Nodup →
      getAllDependenciesList G fuel ds acc = some r → r.Nodup := by
    intro fuel ds
    induction ds with
    | nil =>
      intro acc r hnd h
      rw [getAllDependenciesList_nil] at h
      obtain rfl : acc = r := by injection h
      exact hnd
    | cons d ds ih =>
      intro acc r hnd h
      rw [getAllDependenciesList_cons] at h
      rcases hr : getAllDependencies G fuel d with _ | sd
      · rw [hr] at h; exact absurd h (by simp)
      · rw [hr] at h
        exact ih (setUnion acc sd) r (setUnion_nodup hnd) h
  intro fuel c r h
  cases fuel with
  | zero => simp [getAllDependencies] at h
  | succ fuel =>
    rw [getAllDependencies_succ] at h
    exact hlist fuel _ _ r (depsOf_nodup G c) h

theorem getAllDependencies_fuel (G : Graph) {L : List Nat}
    (hgood : GoodList G L) (hnd : L.Nodup) :
    ∀ (fuel : Nat) (c : Nat), c ∈ L → L.indexOf c < fuel →
      (getAllDependencies G fuel c).isSome := by
  intro fuel
  induction fuel with
  | zero => intro c _ h; omega
  | succ fuel ih =>
    intro c hc hidx
    have hds : ∀ d ∈ depsOf G c, (getAllDependencies G fuel d).isSome := by
      intro d hd
      obtain ⟨hdL, hlt⟩ := hgood.idx_lt hnd c hc d hd
      exact ih d hdL (by omega)
    rw [getAllDependencies_succ]
    have hlist : ∀ (ds acc : List Nat), (∀ d ∈ ds, d ∈ depsOf G c) →
        (getAllDependenciesList G fuel ds acc).isSome := by
      intro ds
      induction ds with
      | nil => intro acc _; simp [getAllDependenciesList_nil]
      | cons d ds ihds =>
        intro acc hsub
        rw [getAllDependenciesList_cons]
        rcases hr : getAllDependencies G fuel d with _ | sd
        · have := hds d (hsub d (List.mem_cons_self _ _))
          rw [hr] at this; cases this
        · exact ihds (setUnion acc sd) (fun d' hd' => hsub d' (List.mem_cons_of_mem _ hd'))
    exact hlist (depsOf G c) (depsOf G c) (fun d hd => hd)


theorem inDeg_inner_eq (p : Nat) :
    ∀ (l : List Nat) (f : Nat → Int),
      l.foldl (fun f _ => fun n => if n = p then f p + 1 else f n) f =
        fun n => if n = p then f p + l.length else f n := by
  intro l
  induction l with
  | nil =>
    intro f
    funext n
    by_cases h : n = p <;> simp [h]
  | cons a l ih =>
    intro f
    simp only [List.foldl]
    rw [ih]
    funext n
    by_cases h : n = p
    · subst h
      simp only [if_pos rfl, List.length_cons]
      push_cast
      ring
    · simp [h]

theorem buildInDeg_eq (G : Graph) :
    ∀ (closure : List Nat) (f : Nat → Int), closure.Nodup →
      ∀ n, (closure.foldl
          (fun f p => (depsOf G p).foldl
            (fun f _ => fun n => if n = p then f p + 1 else f n) f) f) n =
        if n ∈ closure then f n + ((depsOf G n).length : Int) else f n := by
  intro closure
  induction closure with
  | nil => intro f _ n; simp
  | cons p rest ih =>
    intro f hnd n
    simp only [List.foldl]
    rw [inDeg_inner_eq]
    rw [ih _ (List.nodup_cons.mp hnd).2]
    have hpnr : p ∉ rest := (List.nodup_cons.mp hnd).1
    by_cases hnp : n = p
    · subst hnp
      rw [if_neg hpnr, if_pos (List.mem_cons_self _ _), if_pos rfl]
    · by_cases hnr : n ∈ rest
      · rw [if_pos hnr, if_neg hnp,
          if_pos (List.mem_cons_of_mem _ hnr)]
      · rw [if_neg hnr, if_neg hnp]
        rw [if_neg (by intro hh; rcases List.mem_cons.mp hh with hh | hh
                       · exact hnp hh
                       · exact hnr hh)]

theorem buildInDeg_spec (G : Graph) (closure : List Nat) (hnd : closure.Nodup) :
    ∀ n, buildInDeg G closure n =
      if n ∈ closure then ((depsOf G n).length : Int) else 0 := by
  intro n
  unfold buildInDeg
  rw [buildInDeg_eq G closure _ hnd n]
  by_cases h : n ∈ closure <;> simp [h]

theorem adj_inner_eq (p : Nat) :
    ∀ (ds : List Nat) (g : Nat → List Nat), ds.Nodup →
      (ds.foldl (fun g d => fun n => if n = d then setAdd (g d) p else g n) g) =
        fun n => if n ∈ ds then setAdd (g n) p else g n := by
  intro ds
  induction ds with
  | nil => intro g _; funext n; simp
  | cons d rest ih =>
    intro g hnd
    simp only [List.foldl]
    rw [ih _ (List.nodup_cons.mp hnd).2]
    have hdnr : d ∉ rest := (List.nodup_cons.mp hnd).1
    funext n
    by_cases hnd2 : n = d
    · subst hnd2
      rw [if_neg hdnr, if_pos rfl, if_pos (List.mem_cons_self _ _)]
    · by_cases hnr : n ∈ rest
      · rw [if_pos hnr, if_neg hnd2, if_pos (List.mem_cons_of_mem _ hnr)]
      · rw [if_neg hnr, if_neg hnd2,
          if_neg (by intro hh; rcases List.mem_cons.mp hh with hh | hh
                     · exact hnd2 hh
                     · exact hnr hh)]

theorem buildAdj_mem_aux (G : Graph) :
    ∀ (closure : List Nat) (g : Nat → List Nat) (d y : Nat),
      (y ∈ (closure.foldl
          (fun g p => (depsOf G p).foldl
            (fun g d => fun n => if n = d then setAdd (g d) p else g n) g) g) d ↔
        y ∈ g d ∨ (y ∈ closure ∧ d ∈ depsOf G y)) := by
  intro closure
  induction closure with
  | nil => intro g d y; simp
  | cons p rest ih =>
    intro g d y
    simp only [List.foldl]
    rw [adj_inner_eq p _ _ (depsOf_nodup G p)]
    rw [ih]
    constructor
    · rintro (hy | ⟨hyr, hyd⟩)
      · by_cases hd : d ∈ depsOf G p
        · rw [if_pos hd] at hy
          rcases mem_setAdd.mp hy with hy | rfl
          · exact Or.inl hy
          · exact Or.inr ⟨List.mem_cons_self _ _, hd⟩
        · rw [if_neg hd] at hy
          exact Or.inl hy
      · exact Or.inr ⟨List.mem_cons_of_mem _ hyr, hyd⟩
    · rintro (hy | ⟨hyc, hyd⟩)
      · left
        by_cases hd : d ∈ depsOf G p
        · rw [if_pos hd]; exact mem_setAdd.mpr (Or.inl hy)
        · rw [if_neg hd]; exact hy
      · rcases List.mem_cons.mp hyc with rfl | hyr
        · left
          rw [if_pos hyd]
          exact mem_setAdd.mpr (Or.inr rfl)
        · exact Or.inr ⟨hyr, hyd⟩

theorem buildAdj_mem (G : Graph) (closure : List Nat) (d y : Nat) :
    y ∈ buildAdj G closure d ↔ y ∈ closure ∧ d ∈ depsOf G y := by
  unfold buildAdj
  rw [buildAdj_mem_aux]
  simp

theorem buildAdj_nodup_aux (G : Graph) :
    ∀ (closure : List Nat) (g : Nat → List Nat), (∀ d, (g d).Nodup) →
      ∀ d, ((closure.foldl
          (fun g p => (depsOf G p).foldl
            (fun g d => fun n => if n = d then setAdd (g d) p else g n) g) g) d).Nodup := by
  intro closure
  induction closure with
  | nil => intro g hg d; exact hg d
  | cons p rest ih =>
    intro g hg d
    simp only [List.foldl]
    rw [adj_inner_eq p _ _ (depsOf_nodup G p)]
    refine ih _ ?_ d
    intro d'
    by_cases hd : d' ∈ depsOf G p
    · rw [if_pos hd]; exact setAdd_nodup (hg d') p
    · rw [if_neg hd]; exact hg d'

theorem buildAdj_nodup (G : Graph) (closure : List Nat) (d : Nat) :
    (buildAdj G closure d).Nodup :=
  buildAdj_nodup_aux G closure _ (fun _ => List.nodup_nil) d

theorem kahnStep_eq (queue : List Nat) (f : Nat → Int) (a : Nat) :
    kahnStep (queue, f) a =
      ((if f a = 1 then queue ++ [a] else queue),
        fun n => if n = a then f a - 1 else f n) := by
  unfold kahnStep
  by_cases hfa : f a = 1
  · rw [if_pos (by simp [hfa]), if_pos hfa]
  · rw [if_neg (by simp; omega), if_neg hfa]

theorem kahnVisit_eq : ∀ (A queue : List Nat) (f : Nat → Int), A.Nodup →
    kahnVisit A queue f =
      (queue ++ A.filter (fun x => decide (f x = 1)),
        fun n => if n ∈ A then f n - 1 else f n) := by
  intro A
  induction A with
  | nil =>
    intro queue f _
    unfold kahnVisit
    simp
  | cons a A ih =>
    intro queue f hnd
    have hanA : a ∉ A := (List.nodup_cons.mp hnd).1
    have hunf : kahnVisit (a :: A) queue f =
        A.foldl kahnStep (kahnStep (queue, f) a) := rfl
    rw [hunf, kahnStep_eq]
    have hrec : A.foldl kahnStep
        ((if f a = 1 then queue ++ [a] else queue),
          fun n => if n = a then f a - 1 else f n) =
        kahnVisit A (if f a = 1 then queue ++ [a] else queue)
          (fun n => if n = a then f a - 1 else f n) := rfl
    rw [hrec, ih _ _ ((List.nodup_cons.mp hnd).2)]
    have hfilter : A.filter
        (fun x => decide ((fun n => if n = a then f a - 1 else f n) x = 1)) =
        A.filter (fun x => decide (f x = 1)) := by
      apply List.filter_congr
      intro x hx
      have hxa : x ≠ a := fun hh => hanA (hh ▸ hx)
      simp [hxa]
    rw [hfilter]
    refine Prod.ext ?_ ?_
    · by_cases hfa : f a = 1
      · rw [if_pos hfa]
        rw [List.filter_cons_of_pos (by simp [hfa])]
        simp
      · rw [if_neg hfa]
        rw [List.filter_cons_of_neg (by simp [hfa])]
    · funext n
      dsimp only
      by_cases hna : n = a
      · subst hna
        simp [hanA]
      · by_cases hnA : n ∈ A
        · simp [hnA, hna]
        · simp [hnA, hna]

theorem countP_notmem_zero {l result : List Nat} (h : ∀ d ∈ l, d ∈ result) :
    l.countP (fun d => decide (d ∉ result)) = 0 := by
  rw [List.countP_eq_zero]
  intro a ha
  simp [h a ha]

theorem countP_erase_step {q : Nat} {result : List Nat} (hq : q ∉ result) :
    ∀ {l : List Nat}, l.Nodup →
      l.countP (fun d => decide (d ∉ result)) =
        l.countP (fun d => decide (d ∉ result ++ [q])) +
          (if q ∈ l then 1 else 0) := by
  intro l
  induction l with
  | nil => intro _; simp
  | cons a rest ih =>
    intro hnd
    have hnd' := (List.nodup_cons.mp hnd).2
    have hanr := (List.nodup_cons.mp hnd).1
    rw [List.countP_cons, List.countP_cons, ih hnd']
    have hq1 : (if q ∈ a :: rest then 1 else 0) =
        (if q ∈ rest then 1 else 0) + (if a = q then 1 else 0) := by
      by_cases haq : a = q
      · subst haq
        rw [if_pos (List.mem_cons_self _ _), if_neg hanr, if_pos rfl]
      · by_cases hqr : q ∈ rest
        · rw [if_pos hqr, if_pos (List.mem_cons_of_mem _ hqr), if_neg haq]
        · rw [if_neg hqr, if_neg haq,
            if_neg (by intro hh; rcases List.mem_cons.mp hh with hh | hh
                       · exact haq hh.symm
                       · exact hqr hh)]
    have hq2 : (if (decide (a ∉ result)) = true then 1 else 0) =
        (if (decide (a ∉ result ++ [q])) = true then 1 else 0) +
          (if a = q then 1 else 0) := by
      by_cases haq : a = q
      · subst haq
        rw [if_pos (by simp [hq]), if_neg (by simp), if_pos rfl]
      · by_cases har : a ∈ result
        · rw [if_neg (by simp [har]), if_neg (by simp [har]), if_neg haq]
        · rw [if_pos (by simp [har]), if_pos (by simp [har, haq]), if_neg haq]
    rw [hq1, hq2]
    ring

theorem countP_one_unique {l : List Nat} {p : Nat → Bool}
    (h1 : l.countP p = 1) {a b : Nat} (ha : a ∈ l) (hpa : p a = true)
    (hb : b ∈ l) (hpb : p b = true) : a = b := by
  induction l with
  | nil => cases ha
  | cons x rest ih =>
    rw [List.countP_cons] at h1
    by_cases hpx : p x = true
    · rw [if_pos hpx] at h1
      have hz : rest.countP p = 0 := by omega
      have hnone : ∀ y ∈ rest, ¬ p y = true := List.countP_eq_zero.mp hz
      rcases List.mem_cons.mp ha with rfl | ha'
      · rcases List.mem_cons.mp hb with rfl | hb'
        · rfl
        · exact absurd hpb (hnone b hb')
      · exact absurd hpa (hnone a ha')
    · rw [if_neg hpx] at h1
      rcases List.mem_cons.mp ha with rfl | ha'
      · exact absurd hpa hpx
      · rcases List.mem_cons.mp hb with rfl | hb'
        · exact absurd hpb hpx
        · exact ih (by omega) ha' hb'

theorem countP_eq_one_of {l : List Nat} {p : Nat → Bool} {q : Nat}
    (hnd : l.Nodup) (hq : q ∈ l) (hpq : p q = true)
    (huniq : ∀ d ∈ l, p d = true → d = q) : l.countP p = 1 := by
  induction l with
  | nil => cases hq
  | cons a rest ih =>
    have hnd' := (List.nodup_cons.mp hnd).2
    have hanr := (List.nodup_cons.mp hnd).1
    rw [List.countP_cons]
    by_cases haq : a = q
    · subst haq
      rw [if_pos hpq]
      have hz : rest.countP p = 0 := by
        rw [List.countP_eq_zero]
        intro y hy hpy
        exact hanr ((huniq y (List.mem_cons_of_mem _ hy) hpy) ▸ hy)
      omega
    · have hpa : ¬ p a = true := by
        intro hpa
        exact haq (huniq a (List.mem_cons_self _ _) hpa)
      rw [if_neg hpa]
      have hqr : q ∈ rest := by
        rcases List.mem_cons.mp hq with rfl | hh
        · exact absurd rfl haq
        · exact hh
      have := ih hnd' hqr (fun d hd hpd => huniq d (List.mem_cons_of_mem _ hd) hpd)
      omega

/-- Loop invariant for Kahn's algorithm over the closure `C`: the result is a
duplicate-free, dependency-ordered prefix of the topological order; the queue
holds exactly the unprocessed providers whose dependencies are all processed;
and the in-degree table counts each provider's unprocessed dependencies. -/
structure KahnInv (G : Graph) (C queue : List Nat) (inDeg : Nat → Int)
    (result : List Nat) : Prop where
  res_nodup : result.Nodup
  res_sub : ∀ x ∈ result, x ∈ C
  res_idx : ∀ x ∈ result, ∀ d ∈ depsOf G x, d ∈ result ∧
    result.indexOf d < result.indexOf x
  q_nodup : queue.Nodup
  q_sub : ∀ x ∈ queue, x ∈ C
  q_res : ∀ x ∈ queue, x ∉ result
  q_deps : ∀ x ∈ queue, ∀ d ∈ depsOf G x, d ∈ result
  q_complete : ∀ x ∈ C, x ∉ result → (∀ d ∈ depsOf G x, d ∈ result) → x ∈ queue
  deg : ∀ n, inDeg n = if n ∈ C then
    ((depsOf G n).countP (fun d => decide (d ∉ result)) : Int) else 0

theorem kahnInv_init (G : Graph) (C : List Nat) (hCnd : C.Nodup) :
    KahnInv G C (C.filter (fun p => buildInDeg G C p == 0)) (buildInDeg G C)
      [] := by
  have hdeg := buildInDeg_spec G C hCnd
  refine ⟨List.nodup_nil, ?_, ?_, ?_, ?_, ?_, ?_, ?_, ?_⟩
  · intro x hx; cases hx
  · intro x hx; cases hx
  · exact hCnd.filter _
  · intro x hx; exact (List.mem_filter.mp hx).1
  · intro x _ hx; cases hx
  · intro x hx d hd
    obtain ⟨hxC, hx0⟩ := List.mem_filter.mp hx
    rw [hdeg x, if_pos hxC] at hx0
    have : (depsOf G x).length = 0 := by
      have := beq_iff_eq.mp hx0
      omega
    rw [List.length_eq_zero.mp this] at hd
    cases hd
  · intro x hxC _ hdeps
    refine List.mem_filter.mpr ⟨hxC, ?_⟩
    have hlen : (depsOf G x).length = 0 := by
      rcases hd : depsOf G x with _ | ⟨d, ds⟩
      · rfl
      · exact absurd (hdeps d (by rw [hd]; exact List.mem_cons_self _ _))
          (by intro h; cases h)
    rw [hdeg x, if_pos hxC, hlen]
    simp
  · intro n
    rw [hdeg n]
    by_cases hnC : n ∈ C
    · rw [if_pos hnC, if_pos hnC]
      have : (depsOf G n).countP (fun d => decide (d ∉ ([] : List Nat))) =
          (depsOf G n).length := by
        rw [List.countP_eq_length]
        intro a _
        simp
      rw [this]
    · rw [if_neg hnC, if_neg hnC]


theorem kahnInv_step (G : Graph) (C : List Nat)
    {q : Nat} {queue : List Nat} {inDeg : Nat → Int} {result : List Nat}
    (inv : KahnInv G C (q :: queue) inDeg result) :
    KahnInv G C (kahnVisit (buildAdj G C q) queue inDeg).1
      (kahnVisit (buildAdj G C q) queue inDeg).2 (result ++ [q]) := by
  have hAnd := buildAdj_nodup G C q
  rw [kahnVisit_eq _ _ _ hAnd]
  dsimp only
  have hqC : q ∈ C := inv.q_sub q (List.mem_cons_self _ _)
  have hqres : q ∉ result := inv.q_res q (List.mem_cons_self _ _)
  have hqdeps : ∀ d ∈ depsOf G q, d ∈ result :=
    inv.q_deps q (List.mem_cons_self _ _)
  have hqq : q ∉ depsOf G q := fun h => hqres (hqdeps q h)
  have hqnq : q ∉ queue := (List.nodup_cons.mp inv.q_nodup).1
  have hqueue_nd : queue.Nodup := (List.nodup_cons.mp inv.q_nodup).2
  have hdeg0 : ∀ x, x ∈ C → (∀ d ∈ depsOf G x, d ∈ result) → inDeg x = 0 := by
    intro x hxC hdeps
    rw [inv.deg x, if_pos hxC, countP_notmem_zero hdeps]
    rfl
  have hresdeg : ∀ x ∈ result, inDeg x = 0 := fun x hx =>
    hdeg0 x (inv.res_sub x hx) (fun d hd => (inv.res_idx x hx d hd).1)
  have hfilter_mem : ∀ x,
      x ∈ (buildAdj G C q).filter (fun y => decide (inDeg y = 1)) ↔
        (x ∈ C ∧ q ∈ depsOf G x ∧ inDeg x = 1) := by
    intro x
    rw [List.mem_filter, buildAdj_mem]
    constructor
    · rintro ⟨⟨h1, h2⟩, h3⟩
      exact ⟨h1, h2, by simpa using h3⟩
    · rintro ⟨h1, h2, h3⟩
      exact ⟨⟨h1, h2⟩, by simpa using h3⟩
  have huniq : ∀ x, x ∈ C → q ∈ depsOf G x → inDeg x = 1 →
      ∀ d ∈ depsOf G x, d ∉ result → d = q := by
    intro x hxC hqx hx1 d hd hdres
    have hcnt : (depsOf G x).countP (fun d => decide (d ∉ result)) = 1 := by
      have hh := inv.deg x
      rw [if_pos hxC, hx1] at hh
      exact_mod_cast hh.symm
    exact countP_one_unique hcnt hd (by simp [hdres]) hqx (by simp [hqres])
  have hnewnd : (result ++ [q]).Nodup := by
    simpa [List.nodup_append] using ⟨inv.res_nodup, hqres⟩
  refine ⟨hnewnd, ?_, ?_, ?_, ?_, ?_, ?_, ?_, ?_⟩
  · intro x hx
    rcases List.mem_append.mp hx with hx | hx
    · exact inv.res_sub x hx
    · rcases List.mem_singleton.mp hx with rfl
      exact hqC
  · intro x hx d hd
    rcases List.mem_append.mp hx with hx | hx
    · obtain ⟨hdres, hlt⟩ := inv.res_idx x hx d hd
      refine ⟨List.mem_append_left _ hdres, ?_⟩
      rw [List.indexOf_append_of_mem hdres, List.indexOf_append_of_mem hx]
      exact hlt
    · rcases List.mem_singleton.mp hx with rfl
      have hdres := hqdeps d hd
      refine ⟨List.mem_append_left _ hdres, ?_⟩
      rw [List.indexOf_append_of_mem hdres,
        List.indexOf_append_of_not_mem hqres]
      have := List.indexOf_lt_length.mpr hdres
      omega
  · refine List.Nodup.append hqueue_nd (hAnd.filter _) ?_
    intro x hxq hxf
    obtain ⟨hxC, hqx, hx1⟩ := (hfilter_mem x).mp hxf
    have h0 : inDeg x = 0 := hdeg0 x hxC (inv.q_deps x (List.mem_cons_of_mem _ hxq))
    rw [h0] at hx1
    exact absurd hx1 (by decide)
  · intro x hx
    rcases List.mem_append.mp hx with hx | hx
    · exact inv.q_sub x (List.mem_cons_of_mem _ hx)
    · exact ((hfilter_mem x).mp hx).1
  · intro x hx
    rcases List.mem_append.mp hx with hxq | hxf
    · intro hmem
      rcases List.mem_append.mp hmem with hmem | hmem
      · exact inv.q_res x (List.mem_cons_of_mem _ hxq) hmem
      · have hxeq : x = q := List.mem_singleton.mp hmem
        exact hqnq (hxeq ▸ hxq)
    · obtain ⟨hxC, hqx, hx1⟩ := (hfilter_mem x).mp hxf
      intro hmem
      rcases List.mem_append.mp hmem with hmem | hmem
      · have h0 : inDeg x = 0 := hresdeg x hmem
        rw [h0] at hx1
        exact absurd hx1 (by decide)
      · have hxeq : x = q := List.mem_singleton.mp hmem
        exact hqq (hxeq ▸ hqx)
  · intro x hx d hd
    rcases List.mem_append.mp hx with hx | hx
    · exact List.mem_append_left _
        (inv.q_deps x (List.mem_cons_of_mem _ hx) d hd)
    · obtain ⟨hxC, hqx, hx1⟩ := (hfilter_mem x).mp hx
      by_cases hdres : d ∈ result
      · exact List.mem_append_left _ hdres
      · have : d = q := huniq x hxC hqx hx1 d hd hdres
        subst this
        exact List.mem_append_right _ (List.mem_singleton_self _)
  · intro x hxC hxnew hdeps
    have hxres : x ∉ result := fun hh => hxnew (List.mem_append_left _ hh)
    have hxq : x ≠ q := fun hh =>
      hxnew (List.mem_append_right _ (by simp [hh]))
    by_cases hqx : q ∈ depsOf G x
    · refine List.mem_append_right _ ((hfilter_mem x).mpr ⟨hxC, hqx, ?_⟩)
      have hcnt : (depsOf G x).countP (fun d => decide (d ∉ result)) = 1 := by
        refine countP_eq_one_of (depsOf_nodup G x) hqx (by simp [hqres]) ?_
        intro d hd hpd
        have hdres : d ∉ result := by simpa using hpd
        rcases List.mem_append.mp (hdeps d hd) with hh | hh
        · exact absurd hh hdres
        · exact List.mem_singleton.mp hh
      rw [inv.deg x, if_pos hxC, hcnt]
      rfl
    · have hdeps' : ∀ d ∈ depsOf G x, d ∈ result := by
        intro d hd
        rcases List.mem_append.mp (hdeps d hd) with hh | hh
        · exact hh
        · rcases List.mem_singleton.mp hh with rfl
          exact absurd hd hqx
      have := inv.q_complete x hxC hxres hdeps'
      rcases List.mem_cons.mp this with rfl | hh
      · exact absurd rfl hxq
      · exact List.mem_append_left _ hh
  · intro n
    by_cases hnC : n ∈ C
    · have hdegn := inv.deg n
      rw [if_pos hnC] at hdegn
      have hstep := @countP_erase_step q result hqres (depsOf G n)
        (depsOf_nodup G n)
      by_cases hnA : n ∈ buildAdj G C q
      · have hqdep : q ∈ depsOf G n := ((buildAdj_mem G C q n).mp hnA).2
        rw [if_pos hnA, if_pos hnC, hdegn]
        rw [if_pos hqdep] at hstep
        push_cast [hstep]
        ring
      · have hqdep : q ∉ depsOf G n := by
          intro hh
          exact hnA ((buildAdj_mem G C q n).mpr ⟨hnC, hh⟩)
        rw [if_neg hnA, if_pos hnC, hdegn]
        rw [if_neg hqdep] at hstep
        push_cast [hstep]
        ring
    · have hnA : n ∉ buildAdj G C q := by
        intro hh
        exact hnC ((buildAdj_mem G C q n).mp hh).1
      rw [if_neg hnA, if_neg hnC, inv.deg n, if_neg hnC]


theorem kahnLoop_spec (G : Graph) (C : List Nat) :
    ∀ (fuel : Nat) (queue : List Nat) (inDeg : Nat → Int) (result : List Nat),
      KahnInv G C queue inDeg result →
      C.length + 1 ≤ fuel + result.length →
      ∃ R, kahnLoop (buildAdj G C) fuel queue inDeg result = R ∧
        R.Nodup ∧ (∀ x ∈ R, x ∈ C) ∧
        (∀ x ∈ R, ∀ d ∈ depsOf G x, d ∈ R ∧ R.indexOf d < R.indexOf x) ∧
        (∀ x ∈ C, x ∉ R → ∃ d, d ∈ depsOf G x ∧ d ∉ R) := by
  intro fuel
  induction fuel with
  | zero =>
    intro queue inDeg result inv hbound
    have := nodup_subset_length inv.res_nodup inv.res_sub
    omega
  | succ fuel ih =>
    intro queue inDeg result inv hbound
    cases queue with
    | nil =>
      refine ⟨result, rfl, inv.res_nodup, inv.res_sub, inv.res_idx, ?_⟩
      intro x hxC hxR
      by_contra hnone
      push_neg at hnone
      exact absurd (inv.q_complete x hxC hxR hnone) (by intro hh; cases hh)
    | cons q rest =>
      have hunf : kahnLoop (buildAdj G C) (fuel + 1) (q :: rest) inDeg result =
          kahnLoop (buildAdj G C) fuel
            (kahnVisit (buildAdj G C q) rest inDeg).1
            (kahnVisit (buildAdj G C q) rest inDeg).2 (result ++ [q]) := rfl
      obtain ⟨R, hR, hprops⟩ := ih
        (kahnVisit (buildAdj G C q) rest inDeg).1
        (kahnVisit (buildAdj G C q) rest inDeg).2 (result ++ [q])
        (kahnInv_step G C inv)
        (by simp only [List.length_append, List.length_singleton]; omega)
      exact ⟨R, hunf ▸ hR, hprops⟩


/-- A list obtained from a successful cycle check, enumerating the reachable
part of the graph in dependency order.  Packaged for reuse. -/
theorem acyclic_goodlist (G : Graph) (P : Nat) (hA : AcyclicFrom G P)
    {fuel : Nat} (hfuel : (univ G P).length + 1 ≤ fuel) :
    ∃ L, GoodList G L ∧ L.Nodup ∧ P ∈ L ∧ (∀ x ∈ L, x ∈ univ G P) := by
  have hnn : depthFirst G fuel P [] [] ≠ none := by
    refine (depthFirst_fuel G P fuel).1 P [] [] List.nodup_nil ?_
      (mem_univ_root G P) (by simpa using hfuel)
    intro x hx; cases hx
  rcases hr : depthFirst G fuel P [] [] with _ | r
  · exact absurd hr hnn
  · rcases r with e | v
    · exact absurd hA ((depthFirst_error_iff hfuel).mp ⟨e, hr⟩)
    · obtain ⟨L, hgood, hnd, hP, hu, _⟩ := depthFirst_ok_goodlist hr
      exact ⟨L, hgood, hnd, hP, hu⟩

theorem getAllDependencies_spec (G : Graph) (P : Nat) (hA : AcyclicFrom G P)
    {fuel : Nat} (hfuel : (univ G P).length + 1 ≤ fuel) :
    ∃ allDeps, getAllDependencies G fuel P = some allDeps ∧
      allDeps.Nodup ∧
      (∀ x, x ∈ allDeps ↔ (DepPath G P x ∧ x ≠ P)) := by
  obtain ⟨L, hgood, hnd, hPL, hLu⟩ := acyclic_goodlist G P hA hfuel
  have hidx : L.indexOf P < fuel := by
    have h1 : L.indexOf P < L.length := List.indexOf_lt_length.mpr hPL
    have h2 : L.length ≤ (univ G P).length := nodup_subset_length hnd hLu
    omega
  have hsome := getAllDependencies_fuel G hgood hnd fuel P hPL hidx
  rcases hr : getAllDependencies G fuel P with _ | allDeps
  · rw [hr] at hsome; cases hsome
  · have hPnot : P ∉ allDeps := by
      intro hh
      exact hA P (Or.inl rfl) (getAllDependencies_mem_depPath G fuel P allDeps hr P hh)
    refine ⟨allDeps, rfl, getAllDependencies_nodup G fuel P allDeps hr, ?_⟩
    intro x
    constructor
    · intro hx
      refine ⟨getAllDependencies_mem_depPath G fuel P allDeps hr x hx, ?_⟩
      intro hh
      exact hPnot (hh ▸ hx)
    · rintro ⟨hpath, _⟩
      exact getAllDependencies_depPath_mem G hpath fuel allDeps hr

/-- Full functional correctness of `_get_initialization_order` on an acyclic
reachable graph: it succeeds and returns a duplicate-free enumeration of
`{P} ∪ all_dependencies(P)` in which every declared dependency of any member
precedes that member. -/
theorem getInitializationOrder_spec (G : Graph) (P : Nat)
    (hA : AcyclicFrom G P) {fuel : Nat}
    (hfuel : (univ G P).length + 1 ≤ fuel) :
    ∃ order, getInitializationOrder G fuel P = some order ∧
      order.Nodup ∧
      (∀ x, x ∈ order ↔ ReachStar G P x) ∧
      (∀ x ∈ order, ∀ d ∈ depsOf G x,
        d ∈ order ∧ order.indexOf d < order.indexOf x) := by
  obtain ⟨L, hgood, hLnd, hPL, hLu⟩ := acyclic_goodlist G P hA hfuel
  obtain ⟨allDeps, hgad, hadnd, hadmem⟩ := getAllDependencies_spec G P hA hfuel
  have hPnot : P ∉ allDeps := fun hh => ((hadmem P).mp hh).2 rfl
  have hCnd : (setAdd allDeps P).Nodup := setAdd_nodup hadnd P
  have hCmem : ∀ x, x ∈ setAdd allDeps P ↔ ReachStar G P x := by
    intro x
    rw [mem_setAdd]
    constructor
    · rintro (hx | rfl)
      · exact Or.inr ((hadmem x).mp hx).1
      · exact Or.inl rfl
    · rintro (rfl | hpath)
      · exact Or.inr rfl
      · by_cases hxP : x = P
        · exact Or.inr hxP
        · exact Or.inl ((hadmem x).mpr ⟨hpath, hxP⟩)
  have hCL : ∀ x ∈ setAdd allDeps P, x ∈ L := by
    intro x hx
    exact hgood.reach_mem hPL x ((hCmem x).mp hx)
  have hCclosed : ∀ x ∈ setAdd allDeps P, ∀ d ∈ depsOf G x,
      d ∈ setAdd allDeps P := by
    intro x hx d hd
    rw [hCmem]
    rcases (hCmem x).mp hx with rfl | hpath
    · exact Or.inr (.base hd)
    · exact Or.inr (hpath.snoc hd)
  obtain ⟨R, hloop, hRnd, hRsub, hRidx, hRstuck⟩ :=
    kahnLoop_spec G (setAdd allDeps P) ((setAdd allDeps P).length + 1)
      ((setAdd allDeps P).filter (fun p => buildInDeg G (setAdd allDeps P) p == 0))
      (buildInDeg G (setAdd allDeps P)) []
      (kahnInv_init G (setAdd allDeps P) hCnd) (by simp)
  have hCR : ∀ x ∈ setAdd allDeps P, x ∈ R := by
    intro x hx
    by_contra hxR
    rcases hS : (setAdd allDeps P).filter (fun y => decide (y ∉ R)) with _ | ⟨m0, S0⟩
    · have : x ∈ (setAdd allDeps P).filter (fun y => decide (y ∉ R)) :=
        List.mem_filter.mpr ⟨hx, by simpa using hxR⟩
      rw [hS] at this
      cases this
    · have hSne : (setAdd allDeps P).filter (fun y => decide (y ∉ R)) ≠ [] := by
        rw [hS]; intro hh; cases hh
      rcases hm : ((setAdd allDeps P).filter (fun y => decide (y ∉ R))).argmin
          (fun y => L.indexOf y) with _ | m
      · exact hSne (List.argmin_eq_none.mp hm)
      · have hmS := List.argmin_mem hm
        obtain ⟨hmC, hmR⟩ := List.mem_filter.mp hmS
        have hmR' : m ∉ R := by simpa using hmR
        obtain ⟨d, hd, hdR⟩ := hRstuck m hmC hmR'
        have hdC : d ∈ setAdd allDeps P := hCclosed m hmC d hd
        have hdS : d ∈ (setAdd allDeps P).filter (fun y => decide (y ∉ R)) :=
          List.mem_filter.mpr ⟨hdC, by simpa using hdR⟩
        have hle : L.indexOf m ≤ L.indexOf d := List.le_of_mem_argmin hdS hm
        have hlt : L.indexOf d < L.indexOf m :=
          (hgood.idx_lt hLnd m (hCL m hmC) d hd).2
        omega
  have hlen : R.length = (setAdd allDeps P).length :=
    le_antisymm (nodup_subset_length hRnd hRsub) (nodup_subset_length hCnd hCR)
  refine ⟨R, ?_, hRnd, ?_, hRidx⟩
  · unfold getInitializationOrder
    rw [hgad]
    simp only [hloop, hlen, if_pos rfl]
    simp
  · intro x
    rw [← hCmem x]
    exact ⟨fun hh => hRsub x hh, fun hh => hCR x hh⟩


/-- Engine-visible errors, one constructor per exception class used by the
initialization engine (`exceptions.py` and the classes referenced by
`_internal/_utils.py` / `_internal/_metaclass.py`). -/
inductive PErr
  | circularDependency (provider : Nat) (stack : List Nat)
  | orderMismatch (provider : Nat)
  | selfDependency (provider : Nat)
  | initializeReturnedFalse (provider : Nat)
  | providerInitializationError (requested : Nat) (failing : Nat)
  | setupError
  | userError
  | attributeNotInitialized (provider : Nat) (attr : Nat)
  | attributeMissing (provider : Nat) (attr : Nat)
  | guardedAttributeAssignment (provider : Nat) (attr : Nat)
  | initCalledDirectly (provider : Nat)
  | runtimeError (provider : Nat)
  | fuelExhausted
  deriving DecidableEq

/-- Observable behavior of one invocation of a provider's init routine
(`__provider_init__` / `initialize`): return normally, return `False`, raise
an ordinary exception, or invoke a guarded method of its own provider (the
`SelfDependency` scenario). -/
inductive Routine
  | ok
  | retFalse
  | exc
  | callOwnGuarded
  deriving DecidableEq

/-- Process-wide engine state.  `inited` is the set of providers whose
`__provider_initialized__` flag is `True`; `counts` and `log` observe init
routine invocations (the `_init_counter` instrumentation of the test suite);
`attrs` is the class attribute dictionary (`cls.__dict__`); `guarded` is
`__provider_guarded_attrs__`; `setupDone`/`setupRuns` are
`__provider_setup_done__` and the number of invocations of the setup hook. -/
structure St where
  inited : List Nat
  counts : Nat → Nat
  log : List Nat
  attrs : Nat → Nat → Option Nat
  guarded : Nat → Nat → Bool
  setupDone : Bool
  setupRuns : Nat

/-- Embedding of `_raise_on_self_dependency` (`_utils.py` lines 128-141): walk
the interpreter stack and raise `SelfDependency` iff a frame of `cls`'s own
init routine is active.  `ctx` is the list of providers whose init routine
frames are currently on the stack. -/
def raiseOnSelfDependency (ctx : List Nat) (cls : Nat) : Option PErr :=
  if cls ∈ ctx then some (.selfDependency cls) else none

/-- Embedding of `ProviderMetaclass._ensure_setup_configured`
(`_metaclass.py` lines 94-108) / the setup block of
`_initialize_provider_chain` (`_provider.py` lines 158-170): when the hook is
registered and has not yet completed, run it; on success record completion, on
failure raise `SetupError` and leave it marked not-yet-run.  The hook's
behavior may vary per attempt (`hook` gives the outcome of attempt `k`). -/
def ensureSetup (hook : Option (Nat → Bool)) (st : St) : St × Option PErr :=
  match hook with
  | none => (st, none)
  | some f =>
    if st.setupDone then (st, none)
    else
      if f st.setupRuns then
        ({ st with setupRuns := st.setupRuns + 1, setupDone := true }, none)
      else
        ({ st with setupRuns := st.setupRuns + 1 }, some .setupError)

/-- Result of one init-routine invocation: the updated state plus how the
call ended. -/
inductive ROutcome
  | success (st : St)
  | returnedFalse (st : St)
  | raised (st : St) (e : PErr)

/-- Run provider `p`'s init routine once.  The invocation itself is recorded
in `counts`/`log`; the routine's behavior is that of attempt number
`st.counts p`.  A routine that invokes one of its own guarded methods hits
`_wrap_guarded_method` with its own init frame on the stack, so when `p` is
not yet marked initialized the wrapper raises `SelfDependency p` before any
dependency initialization (and when `p` is already marked the guard is a
no-op). -/
def runRoutine (routines : Nat → Nat → Routine) (p : Nat) (st : St) :
    ROutcome :=
  let st1 : St := { st with
    counts := fun n => if n = p then st.counts n + 1 else st.counts n,
    log := st.log ++ [p] }
  match routines p (st.counts p) with
  | .ok => .success st1
  | .retFalse => .returnedFalse st1
  | .exc => .raised st1 .userError
  | .callOwnGuarded =>
    if p ∈ st1.inited then .success st1
    else .raised st1 (.selfDependency p)

/-- The `for p in order:` loop of `_initialize_provider_chain` (`_utils.py`
lines 174-192): skip already-initialized providers; run the init routine;
`False` return raises `InitializeReturnedFalse(p)`; mark the provider on
success; `SelfDependency` and `InitializeReturnedFalse` propagate unwrapped,
any other exception is wrapped into a `ProviderInitializationError` naming the
originally requested provider and the failing one. -/
def chainLoop (routines : Nat → Nat → Routine) (cls : Nat) :
    List Nat → St → St × Option PErr
  | [], st => (st, none)
  | p :: rest, st =>
    if p ∈ st.inited then chainLoop routines cls rest st
    else
      match runRoutine routines p st with
      | .success st1 =>
        chainLoop routines cls rest { st1 with inited := p :: st1.inited }
      | .returnedFalse st1 => (st1, some (.initializeReturnedFalse p))
      | .raised st1 e =>
        match e with
        | .selfDependency n => (st1, some (.selfDependency n))
        | .initializeReturnedFalse n => (st1, some (.initializeReturnedFalse n))
        | _ => (st1, some (.providerInitializationError cls p))

/-- Embedding of `_initialize_provider_chain` (`_utils.py` lines 144-192):
under the global lock, fast-path on the initialized flag, run the one-time
setup hook, check for circular dependencies, compute the initialization order
and run the loop. -/
def providerChain (G : Graph) (routines : Nat → Nat → Routine)
    (hook : Option (Nat → Bool)) (fuel : Nat) (cls : Nat) (st : St) :
    St × Option PErr :=
  if cls ∈ st.inited then (st, none)
  else
    match ensureSetup hook st with
    | (st1, some e) => (st1, some e)
    | (st1, none) =>
      match depthFirst G fuel cls [] [] with
      | none => (st1, some .fuelExhausted)
      | some (.error e) => (st1, some (.circularDependency e.1 e.2))
      | some (.ok _) =>
        match getInitializationOrder G fuel cls with
        | none => (st1, some (.orderMismatch cls))
        | some order => chainLoop routines cls order st1

/-- Embedding of the sync wrapper of `_wrap_guarded_method` (`_utils.py`
lines 195-219): when the owning provider is not marked initialized, first run
the self-dependency check against the current stack `ctx`, then initialize
the provider chain; otherwise do nothing and forward the call. -/
def guardedCall (G : Graph) (routines : Nat → Nat → Routine)
    (hook : Option (Nat → Bool)) (fuel : Nat) (ctx : List Nat) (cls : Nat)
    (st : St) : St × Option PErr :=
  if cls ∈ st.inited then (st, none)
  else
    match raiseOnSelfDependency ctx cls with
    | some e => (st, some e)
    | none => providerChain G routines hook fuel cls st

/-- Embedding of `ProviderMetaclass.__setattr__` (`_metaclass.py` lines
88-92): any assignment to a guarded attribute removes it from the guarded set
and then performs the plain class-attribute assignment; nothing is ever
rejected. -/
def metaSetattr (cls name v : Nat) (st : St) : St :=
  let g' : Nat → Nat → Bool :=
    if st.guarded cls name then
      fun c a => if c = cls ∧ a = name then false else st.guarded c a
    else st.guarded
  { st with
    guarded := g'
    attrs := fun c a => if c = cls ∧ a = name then some v else st.attrs c a }

/-- Embedding of `GuardedAttribute.__set__` (`_guarded.py` lines 144-160):
an assignment made while a frame of the owning provider's `initialize` is on
the stack (`cls ∈ ctx`) stores the value; any other assignment raises
`GuardedAttributeAssignment`, with no regard to whether the attribute was
previously set. -/
def guardedAttributeSet (ctx : List Nat) (cls name v : Nat) (st : St) :
    St × Option PErr :=
  if cls ∈ ctx then
    ({ st with
        attrs := fun c a => if c = cls ∧ a = name then some v else st.attrs c a },
      none)
  else (st, some (.guardedAttributeAssignment cls name))

/-- Embedding of `ProviderMetaclass.__getattribute__` (`_metaclass.py` lines
77-86): a read of a guarded attribute first initializes the provider chain
when the provider is not marked initialized, then raises
`AttributeNotInitialized` when the attribute is still absent from the class
dictionary, and otherwise returns the stored value.  Reads of non-guarded
names are plain attribute lookups. -/
def metaGetattribute (G : Graph) (routines : Nat → Nat → Routine)
    (hook : Option (Nat → Bool)) (fuel : Nat) (cls name : Nat) (st : St) :
    St × Except PErr Nat :=
  if st.guarded cls name then
    match
      (if cls ∈ st.inited then (st, none)
       else providerChain G routines hook fuel cls st) with
    | (st1, some e) => (st1, .error e)
    | (st1, none) =>
      match st1.attrs cls name with
      | none => (st1, .error (.attributeNotInitialized cls name))
      | some v => (st1, .ok v)
  else
    match st.attrs cls name with
    | none => (st, .error (.attributeMissing cls name))
    | some v => (st, .ok v)


/-- Behavior of the user `initialize()` body in `BaseProvider._initialize_impl`
(`base_provider.py`): it either returns or raises. -/
inductive InitBeh
  | returns
  | raises
  deriving DecidableEq

/-- Behavior of the `ping()` health check: return a boolean or raise. -/
inductive PingBeh
  | gives (b : Bool)
  | raises
  deriving DecidableEq

/-- Outcome of `_initialize_impl`: the `_initialized` flag, whether `ping()`
was invoked, and the raised error if any. -/
structure ImplResult where
  initialized : Bool
  pingCalled : Bool
  err : Option PErr
  deriving DecidableEq

/-- Embedding of `BaseProvider._initialize_impl` (`base_provider.py` lines
318-361; `BaseService._initialize_impl` in `base_service.py` lines 117-142 is
identical up to exception names): run `initialize()`; if it returns, call
`ping()`; wrap a `ping` exception or a non-True `ping` result into
`ProviderInitializationError`; only after a `True` ping set
`_initialized = True`. -/
def initializeImpl (ib : InitBeh) (pb : PingBeh) (cls : Nat) (init0 : Bool) :
    ImplResult :=
  match ib with
  | .raises => ⟨init0, false, some .userError⟩
  | .returns =>
    match pb with
    | .raises => ⟨init0, true, some (.providerInitializationError cls cls)⟩
    | .gives b =>
      if b then ⟨true, true, none⟩
      else ⟨init0, true, some (.providerInitializationError cls cls)⟩

/-- A value stored in a class namespace while the metaclass builds the
class. -/
inductive NsVal
  | routineVal (code : Nat)
  | plugVal
  | plainVal (v : Nat)
  deriving DecidableEq

/-- Embedding of the namespace rewrite of `ProviderMetaclass.__new__`
(`_metaclass.py` lines 50-65): the user-supplied `__init__` is re-bound under
`__provider_init__` and the public `__init__` key is re-bound to a stub that
always raises `InitCalledDirectly`; every other entry is passed through
unchanged. -/
def metaNew : List (String × NsVal) → List (String × NsVal)
  | [] => []
  | (attr, v) :: rest =>
    if attr = "__init__" then
      ("__provider_init__", v) :: ("__init__", NsVal.plugVal) :: metaNew rest
    else (attr, v) :: metaNew rest

/-- Embedding of the namespace rewrite of `_ProviderMeta.__new__` (`_meta.py`
lines 51-64): the mandatory `initialize` classmethod is stored under
`__provider_initialize__` and the public key is re-bound to a stub raising
`RuntimeError`. -/
def metaNewProto : List (String × NsVal) → List (String × NsVal)
  | [] => []
  | (attr, v) :: rest =>
    if attr = "initialize" then
      ("__provider_initialize__", v) :: (attr, NsVal.plugVal) :: metaNewProto rest
    else (attr, v) :: metaNewProto rest

/-- Calling the stub installed by the metaclass (`_init_plug` /
`_initialize_plug`): it raises unconditionally and touches no engine state. -/
def plugCall (provider : Nat) (st : St) : St × Option PErr :=
  (st, some (.initCalledDirectly provider))

/-- The draft-3 stub raises a plain `RuntimeError` instead. -/
def plugCallProto (provider : Nat) (st : St) : St × Option PErr :=
  (st, some (.runtimeError provider))


/-- The state carried by a routine outcome. -/
def ROutcome.state : ROutcome → St
  | .success st => st
  | .returnedFalse st => st
  | .raised st _ => st

/-- Record one init-routine invocation of `p` in the observation fields. -/
def bumpSt (st : St) (p : Nat) : St :=
  { st with
    counts := fun n => if n = p then st.counts n + 1 else st.counts n,
    log := st.log ++ [p] }

theorem runRoutine_state_eq (routines : Nat → Nat → Routine) (p : Nat)
    (st : St) : (runRoutine routines p st).state = bumpSt st p := by
  unfold runRoutine
  rcases hb : routines p (st.counts p) with _ | _ | _ | _
  · rfl
  · rfl
  · rfl
  · dsimp only [bumpSt]
    split
    · rfl
    · rfl

theorem bumpSt_counts_ne {st : St} {p n : Nat} (hn : n ≠ p) :
    (bumpSt st p).counts n = st.counts n := by
  simp [bumpSt, hn]

theorem bumpSt_counts_self (st : St) (p : Nat) :
    (bumpSt st p).counts p = st.counts p + 1 := by
  simp [bumpSt]

theorem ensureSetup_preserves (hook : Option (Nat → Bool)) (st : St) :
    (ensureSetup hook st).1.inited = st.inited ∧
    (ensureSetup hook st).1.counts = st.counts ∧
    (ensureSetup hook st).1.log = st.log ∧
    (ensureSetup hook st).1.attrs = st.attrs ∧
    (ensureSetup hook st).1.guarded = st.guarded := by
  unfold ensureSetup
  rcases hook with _ | f
  · exact ⟨rfl, rfl, rfl, rfl, rfl⟩
  · dsimp only
    by_cases hdone : st.setupDone
    · rw [if_pos hdone]
      exact ⟨rfl, rfl, rfl, rfl, rfl⟩
    · rw [if_neg hdone]
      by_cases hf : f st.setupRuns
      · rw [if_pos hf]
        exact ⟨rfl, rfl, rfl, rfl, rfl⟩
      · rw [if_neg hf]
        exact ⟨rfl, rfl, rfl, rfl, rfl⟩

theorem chainLoop_state (routines : Nat → Nat → Routine) (cls : Nat) :
    ∀ (order : List Nat) (st : St),
      (∀ x ∈ st.inited, x ∈ (chainLoop routines cls order st).1.inited) ∧
      (∀ p ∈ st.inited, (chainLoop routines cls order st).1.counts p = st.counts p) ∧
      (chainLoop routines cls order st).1.setupDone = st.setupDone ∧
      (chainLoop routines cls order st).1.setupRuns = st.setupRuns ∧
      (chainLoop routines cls order st).1.attrs = st.attrs ∧
      (chainLoop routines cls order st).1.guarded = st.guarded := by
  intro order
  induction order with
  | nil =>
    intro st
    exact ⟨fun x hx => hx, fun p _ => rfl, rfl, rfl, rfl, rfl⟩
  | cons q rest ih =>
    intro st
    rw [chainLoop]
    by_cases hq : q ∈ st.inited
    · rw [if_pos hq]
      exact ih st
    · rw [if_neg hq]
      rcases hrr : runRoutine routines q st with st1 | st1 | ⟨st1, e⟩
      · have hst1 : st1 = bumpSt st q := by
          have hh := runRoutine_state_eq routines q st
          rw [hrr] at hh
          exact hh
        subst hst1
        obtain ⟨ih1, ih2, ih3, ih4, ih5, ih6⟩ :=
          ih { bumpSt st q with inited := q :: (bumpSt st q).inited }
        refine ⟨?_, ?_, ih3, ih4, ih5, ih6⟩
        · intro x hx
          exact ih1 x (List.mem_cons_of_mem _ hx)
        · intro p hp
          have hpq : p ≠ q := fun hh => hq (hh ▸ hp)
          rw [ih2 p (List.mem_cons_of_mem _ hp)]
          exact bumpSt_counts_ne hpq
      · have hst1 : st1 = bumpSt st q := by
          have hh := runRoutine_state_eq routines q st
          rw [hrr] at hh
          exact hh
        subst hst1
        exact ⟨fun x hx => hx, fun p hp => bumpSt_counts_ne (fun hh => hq (hh ▸ hp)),
          rfl, rfl, rfl, rfl⟩
      · have hst1 : st1 = bumpSt st q := by
          have hh := runRoutine_state_eq routines q st
          rw [hrr] at hh
          exact hh
        subst hst1
        rcases e <;>
          exact ⟨fun x hx => hx, fun p hp => bumpSt_counts_ne (fun hh => hq (hh ▸ hp)),
            rfl, rfl, rfl, rfl⟩

theorem chainLoop_success_marks (routines : Nat → Nat → Routine) (cls : Nat) :
    ∀ (order : List Nat) (st : St),
      (chainLoop routines cls order st).2 = none →
      ∀ x ∈ order, x ∈ (chainLoop routines cls order st).1.inited := by
  intro order
  induction order with
  | nil => intro st _ x hx; cases hx
  | cons q rest ih =>
    intro st hok x hx
    rw [chainLoop] at hok ⊢
    by_cases hq : q ∈ st.inited
    · rw [if_pos hq] at hok ⊢
      rcases List.mem_cons.mp hx with rfl | hx
      · exact (chainLoop_state routines cls rest st).1 x hq
      · exact ih st hok x hx
    · rw [if_neg hq] at hok ⊢
      rcases hrr : runRoutine routines q st with st1 | st1 | ⟨st1, e⟩
      all_goals rw [hrr] at hok
      · rcases List.mem_cons.mp hx with rfl | hx
        · refine (chainLoop_state routines cls rest _).1 x ?_
          exact List.mem_cons_self _ _
        · exact ih _ hok x hx
      · exact absurd hok (by simp)
      · rcases e <;> simp at hok

theorem chainLoop_err_shape (routines : Nat → Nat → Routine) (cls : Nat) :
    ∀ (order : List Nat) (st : St) (e : PErr),
      (chainLoop routines cls order st).2 = some e →
      (∃ n, e = .selfDependency n) ∨ (∃ n, e = .initializeReturnedFalse n) ∨
      (∃ n, e = .providerInitializationError cls n) := by
  intro order
  induction order with
  | nil => intro st e h; simp [chainLoop] at h
  | cons q rest ih =>
    intro st e h
    rw [chainLoop] at h
    by_cases hq : q ∈ st.inited
    · rw [if_pos hq] at h
      exact ih st e h
    · rw [if_neg hq] at h
      rcases hrr : runRoutine routines q st with st1 | st1 | ⟨st1, e'⟩
      · rw [hrr] at h
        exact ih _ e h
      · rw [hrr] at h
        simp only at h
        exact Or.inr (Or.inl ⟨q, (Option.some.inj h).symm⟩)
      · rw [hrr] at h
        rcases e' <;> simp only at h
        all_goals rcases Option.some.inj h with rfl
        · exact Or.inr (Or.inr ⟨q, rfl⟩)
        · exact Or.inr (Or.inr ⟨q, rfl⟩)
        · exact Or.inl ⟨_, rfl⟩
        · exact Or.inr (Or.inl ⟨_, rfl⟩)
        · exact Or.inr (Or.inr ⟨q, rfl⟩)
        · exact Or.inr (Or.inr ⟨q, rfl⟩)
        · exact Or.inr (Or.inr ⟨q, rfl⟩)
        · exact Or.inr (Or.inr ⟨q, rfl⟩)
        · exact Or.inr (Or.inr ⟨q, rfl⟩)
        · exact Or.inr (Or.inr ⟨q, rfl⟩)
        · exact Or.inr (Or.inr ⟨q, rfl⟩)
        · exact Or.inr (Or.inr ⟨q, rfl⟩)
        · exact Or.inr (Or.inr ⟨q, rfl⟩)


/-- Complete analysis of a failing pass of the initialization loop: there is a
single failing provider `Q`; it was not initialized before and is left
unmarked; its routine was invoked exactly once more; everything before it in
the order ends up initialized; everything after it is untouched (neither run
nor marked); and the raised error is determined by the failure mode —
an exception is wrapped into `ProviderInitializationError (requested, Q)`,
a `False` return raises `InitializeReturnedFalse Q`, and a self-dependent
routine propagates `SelfDependency Q` unwrapped. -/
theorem chainLoop_error (routines : Nat → Nat → Routine) (cls : Nat) :
    ∀ (order : List Nat) (st st' : St) (e : PErr), order.Nodup →
      chainLoop routines cls order st = (st', some e) →
      ∃ Q pre post, order = pre ++ Q :: post ∧
        Q ∉ st.inited ∧ Q ∉ st'.inited ∧
        st'.counts Q = st.counts Q + 1 ∧
        (∀ r ∈ post, st'.counts r = st.counts r ∧
          (r ∈ st'.inited ↔ r ∈ st.inited)) ∧
        (∀ r ∈ pre, r ∈ st'.inited) ∧
        ((routines Q (st.counts Q) = .exc ∧
            e = .providerInitializationError cls Q) ∨
         (routines Q (st.counts Q) = .retFalse ∧
            e = .initializeReturnedFalse Q) ∨
         (routines Q (st.counts Q) = .callOwnGuarded ∧
            e = .selfDependency Q)) := by
  intro order
  induction order with
  | nil =>
    intro st st' e _ h
    simp [chainLoop] at h
  | cons q rest ih =>
    intro st st' e hnd h
    have hqrest : q ∉ rest := (List.nodup_cons.mp hnd).1
    have hndr : rest.Nodup := (List.nodup_cons.mp hnd).2
    rw [chainLoop] at h
    by_cases hq : q ∈ st.inited
    · rw [if_pos hq] at h
      obtain ⟨Q, pre, post, hsplit, hQst, hQst', hcnt, hpost, hpre, hmode⟩ :=
        ih st st' e hndr h
      refine ⟨Q, q :: pre, post, by rw [hsplit]; rfl, hQst, hQst', hcnt,
        hpost, ?_, hmode⟩
      intro r hr
      rcases List.mem_cons.mp hr with rfl | hr
      · have hst' : (chainLoop routines cls rest st).1 = st' := by rw [h]
        rw [← hst']
        exact (chainLoop_state routines cls rest st).1 r hq
      · exact hpre r hr
    · rw [if_neg hq] at h
      rcases hrr : runRoutine routines q st with st1 | st1 | ⟨st1, e1⟩ <;>
        rw [hrr] at h
      · -- success at q, failure later in rest
        have hst1 : st1 = bumpSt st q := by
          have hh := runRoutine_state_eq routines q st
          rw [hrr] at hh
          exact hh
        subst hst1
        have hbok : routines q (st.counts q) ≠ .retFalse ∧
            routines q (st.counts q) ≠ .exc := by
          constructor <;> intro hb <;> rw [runRoutine, hb] at hrr <;> cases hrr
        obtain ⟨Q, pre, post, hsplit, hQst2, hQst', hcnt, hpost, hpre, hmode⟩ :=
          ih _ st' e hndr h
        have hQq : Q ≠ q := by
          intro hh
          subst hh
          rw [hsplit] at hqrest
          exact hqrest (List.mem_append_right _ (List.mem_cons_self _ _))
        have hQst : Q ∉ st.inited := by
          intro hh
          exact hQst2 (List.mem_cons_of_mem _ hh)
        refine ⟨Q, q :: pre, post, by rw [hsplit]; rfl, hQst, hQst', ?_, ?_, ?_, ?_⟩
        · rw [hcnt]
          simp only
          rw [bumpSt_counts_ne hQq]
        · intro r hr
          have hrrest : r ∈ rest := by
            rw [hsplit]
            exact List.mem_append_right _ (List.mem_cons_of_mem _ hr)
          have hrq : r ≠ q := fun hh => hqrest (hh ▸ hrrest)
          obtain ⟨hc, hi⟩ := hpost r hr
          refine ⟨?_, ?_⟩
          · rw [hc]
            simp only
            rw [bumpSt_counts_ne hrq]
          · rw [hi]
            simp only [bumpSt, List.mem_cons]
            constructor
            · rintro (hh | hh)
              · exact absurd hh hrq
              · exact hh
            · exact fun hh => Or.inr hh
        · intro r hr
          rcases List.mem_cons.mp hr with rfl | hr
          · have hst' := congrArg Prod.fst h
            simp only at hst'
            rw [← hst']
            refine (chainLoop_state routines cls rest _).1 r ?_
            exact List.mem_cons_self _ _
          · exact hpre r hr
        · rcases hmode with ⟨hb, he⟩ | ⟨hb, he⟩ | ⟨hb, he⟩
          · refine Or.inl ⟨?_, he⟩
            rw [← hb]
            simp only
            rw [bumpSt_counts_ne hQq]
          · refine Or.inr (Or.inl ⟨?_, he⟩)
            rw [← hb]
            simp only
            rw [bumpSt_counts_ne hQq]
          · refine Or.inr (Or.inr ⟨?_, he⟩)
            rw [← hb]
            simp only
            rw [bumpSt_counts_ne hQq]
      · -- q returned False
        have hst1 : st1 = bumpSt st q := by
          have hh := runRoutine_state_eq routines q st
          rw [hrr] at hh
          exact hh
        subst hst1
        have hb : routines q (st.counts q) = .retFalse := by
          rcases hbb : routines q (st.counts q) with _ | _ | _ | _
          · rw [runRoutine, hbb] at hrr
            cases hrr
          · rfl
          · rw [runRoutine, hbb] at hrr
            cases hrr
          · rw [runRoutine, hbb] at hrr
            dsimp only at hrr
            split at hrr
            · cases hrr
            · cases hrr
        obtain ⟨rfl, he⟩ : st' = bumpSt st q ∧ e = .initializeReturnedFalse q := by
          have h1 := congrArg Prod.fst h
          have h2 := congrArg Prod.snd h
          simp only at h1 h2
          exact ⟨h1.symm, (Option.some.inj h2).symm⟩
        refine ⟨q, [], rest, rfl, hq, ?_, bumpSt_counts_self st q, ?_, ?_, ?_⟩
        · simpa [bumpSt] using hq
        · intro r hr
          have hrq : r ≠ q := fun hh => hqrest (hh ▸ hr)
          exact ⟨bumpSt_counts_ne hrq, Iff.rfl⟩
        · intro r hr; cases hr
        · exact Or.inr (Or.inl ⟨hb, he⟩)
      · -- q raised
        have hst1 : st1 = bumpSt st q := by
          have hh := runRoutine_state_eq routines q st
          rw [hrr] at hh
          exact hh
        subst hst1
        have hmode : (routines q (st.counts q) = .exc ∧ e1 = .userError) ∨
            (routines q (st.counts q) = .callOwnGuarded ∧
              e1 = .selfDependency q) := by
          rcases hbb : routines q (st.counts q) with _ | _ | _ | _
          · rw [runRoutine, hbb] at hrr
            cases hrr
          · rw [runRoutine, hbb] at hrr
            cases hrr
          · rw [runRoutine, hbb] at hrr
            exact Or.inl ⟨rfl, (ROutcome.raised.inj hrr).2.symm⟩
          · rw [runRoutine, hbb] at hrr
            dsimp only at hrr
            split at hrr
            · cases hrr
            · exact Or.inr ⟨rfl, (ROutcome.raised.inj hrr).2.symm⟩
        have hres : st' = bumpSt st q ∧
            ((e1 = .userError ∧ e = .providerInitializationError cls q) ∨
             (e1 = .selfDependency q ∧ e = .selfDependency q)) := by
          rcases hmode with ⟨_, rfl⟩ | ⟨_, rfl⟩
          · simp only at h
            exact ⟨(congrArg Prod.fst h).symm,
              Or.inl ⟨rfl, (Option.some.inj (congrArg Prod.snd h)).symm⟩⟩
          · simp only at h
            exact ⟨(congrArg Prod.fst h).symm,
              Or.inr ⟨rfl, (Option.some.inj (congrArg Prod.snd h)).symm⟩⟩
        obtain ⟨rfl, hres2⟩ := hres
        refine ⟨q, [], rest, rfl, hq, ?_, bumpSt_counts_self st q, ?_, ?_, ?_⟩
        · simpa [bumpSt] using hq
        · intro r hr
          have hrq : r ≠ q := fun hh => hqrest (hh ▸ hr)
          exact ⟨bumpSt_counts_ne hrq, Iff.rfl⟩
        · intro r hr; cases hr
        · rcases hmode with ⟨hb, he1⟩ | ⟨hb, he1⟩
          · rcases hres2 with ⟨_, he⟩ | ⟨hcontra, _⟩
            · exact Or.inl ⟨hb, he⟩
            · rw [he1] at hcontra; cases hcontra
          · rcases hres2 with ⟨hcontra, _⟩ | ⟨_, he⟩
            · rw [he1] at hcontra; cases hcontra
            · exact Or.inr (Or.inr ⟨hb, he⟩)


theorem ensureSetup_done {hook : Option (Nat → Bool)} {st : St}
    (h : st.setupDone = true) : ensureSetup hook st = (st, none) := by
  unfold ensureSetup
  rcases hook with _ | f
  · rfl
  · dsimp only
    rw [if_pos h]

theorem ensureSetup_error_char {hook : Option (Nat → Bool)} {st : St} {e : PErr}
    (h : (ensureSetup hook st).2 = some e) :
    e = .setupError ∧
    (ensureSetup hook st).1.inited = st.inited ∧
    (ensureSetup hook st).1.counts = st.counts ∧
    (ensureSetup hook st).1.setupDone = false ∧
    (ensureSetup hook st).1.setupRuns = st.setupRuns + 1 ∧
    st.setupDone = false := by
  unfold ensureSetup at *
  rcases hook with _ | f
  · cases h
  · dsimp only at h ⊢
    by_cases hdone : st.setupDone
    · rw [if_pos hdone] at h
      cases h
    · rw [if_neg hdone] at h ⊢
      by_cases hf : f st.setupRuns
      · rw [if_pos hf] at h
        cases h
      · rw [if_neg hf] at h ⊢
        refine ⟨(Option.some.inj h).symm, rfl, rfl, ?_, rfl, ?_⟩
        · simpa using hdone
        · simpa using hdone

theorem ensureSetup_ok_done {f : Nat → Bool} {st : St}
    (h : (ensureSetup (some f) st).2 = none) :
    (ensureSetup (some f) st).1.setupDone = true := by
  unfold ensureSetup at *
  dsimp only at h ⊢
  by_cases hdone : st.setupDone
  · rw [if_pos hdone] at h ⊢
    exact hdone
  · rw [if_neg hdone] at h ⊢
    by_cases hf : f st.setupRuns
    · rw [if_pos hf]
    · rw [if_neg hf] at h
      cases h

theorem ensureSetup_runs_le (hook : Option (Nat → Bool)) (st : St) :
    st.setupRuns ≤ (ensureSetup hook st).1.setupRuns ∧
    (ensureSetup hook st).1.setupRuns ≤ st.setupRuns + 1 := by
  unfold ensureSetup
  rcases hook with _ | f
  · exact ⟨Nat.le_refl _, Nat.le_succ _⟩
  · dsimp only
    by_cases hdone : st.setupDone
    · rw [if_pos hdone]
      exact ⟨Nat.le_refl _, Nat.le_succ _⟩
    · rw [if_neg hdone]
      by_cases hf : f st.setupRuns
      · rw [if_pos hf]
        exact ⟨Nat.le_succ _, Nat.le_refl _⟩
      · rw [if_neg hf]
        exact ⟨Nat.le_succ _, Nat.le_refl _⟩

theorem getInitializationOrder_mem_self (G : Graph) (fuel : Nat) (cls : Nat)
    (order : List Nat)
    (h : getInitializationOrder G fuel cls = some order) : cls ∈ order := by
  unfold getInitializationOrder at h
  rcases hgad : getAllDependencies G fuel cls with _ | allDeps
  · rw [hgad] at h
    cases h
  · rw [hgad] at h
    have hCnd : (setAdd allDeps cls).Nodup :=
      setAdd_nodup (getAllDependencies_nodup G fuel cls allDeps hgad) cls
    obtain ⟨R, hloop, hRnd, hRsub, _, _⟩ :=
      kahnLoop_spec G (setAdd allDeps cls) ((setAdd allDeps cls).length + 1)
        ((setAdd allDeps cls).filter
          (fun p => buildInDeg G (setAdd allDeps cls) p == 0))
        (buildInDeg G (setAdd allDeps cls)) []
        (kahnInv_init G (setAdd allDeps cls) hCnd) (by simp)
    simp only [hloop] at h
    by_cases hlen : R.length = (setAdd allDeps cls).length
    · rw [if_pos hlen] at h
      obtain rfl : R = order := by injection h
      have hperm : R.Perm (setAdd allDeps cls) :=
        (List.subperm_of_subset hRnd hRsub).perm_of_length_le (by omega)
      rw [hperm.mem_iff]
      exact mem_setAdd.mpr (Or.inr rfl)
    · rw [if_neg hlen] at h
      cases h

theorem providerChain_noop (G : Graph) (routines : Nat → Nat → Routine)
    (hook : Option (Nat → Bool)) (fuel : Nat) {cls : Nat} {st : St}
    (h : cls ∈ st.inited) :
    providerChain G routines hook fuel cls st = (st, none) := by
  unfold providerChain
  rw [if_pos h]

theorem providerChain_preserves (G : Graph) (routines : Nat → Nat → Routine)
    (hook : Option (Nat → Bool)) (fuel : Nat) (cls : Nat) (st : St) :
    ∀ p ∈ st.inited,
      p ∈ (providerChain G routines hook fuel cls st).1.inited ∧
      (providerChain G routines hook fuel cls st).1.counts p = st.counts p := by
  intro p hp
  unfold providerChain
  by_cases hc : cls ∈ st.inited
  · rw [if_pos hc]
    exact ⟨hp, rfl⟩
  · rw [if_neg hc]
    obtain ⟨hsi, hsc, _, _, _⟩ := ensureSetup_preserves hook st
    rcases hs : ensureSetup hook st with ⟨st1, e1⟩
    rw [hs] at hsi hsc
    simp only at hsi hsc
    rcases e1 with _ | e
    · rcases hd : depthFirst G fuel cls [] [] with _ | r
      · exact ⟨hsi ▸ hp, by rw [hsc]⟩
      · rcases r with e | v
        · exact ⟨hsi ▸ hp, by rw [hsc]⟩
        · rcases ho : getInitializationOrder G fuel cls with _ | order
          · exact ⟨hsi ▸ hp, by rw [hsc]⟩
          · obtain ⟨h1, h2, _, _, _, _⟩ := chainLoop_state routines cls order st1
            refine ⟨h1 p (hsi ▸ hp), ?_⟩
            rw [h2 p (hsi ▸ hp), hsc]
    · exact ⟨hsi ▸ hp, by rw [hsc]⟩


theorem providerChain_setup_once (G : Graph) (routines : Nat → Nat → Routine)
    (hook : Option (Nat → Bool)) (fuel : Nat) (cls : Nat) (st : St)
    (hdone : st.setupDone = true) :
    (providerChain G routines hook fuel cls st).1.setupRuns = st.setupRuns ∧
    (providerChain G routines hook fuel cls st).1.setupDone = true := by
  unfold providerChain
  by_cases hc : cls ∈ st.inited
  · rw [if_pos hc]
    exact ⟨rfl, hdone⟩
  · rw [if_neg hc]
    rw [ensureSetup_done hdone]
    rcases hd : depthFirst G fuel cls [] [] with _ | r
    · exact ⟨rfl, hdone⟩
    · rcases r with e | v
      · exact ⟨rfl, hdone⟩
      · rcases ho : getInitializationOrder G fuel cls with _ | order
        · exact ⟨rfl, hdone⟩
        · obtain ⟨_, _, h3, h4, _, _⟩ := chainLoop_state routines cls order st
          exact ⟨h4, by rw [h3]; exact hdone⟩

theorem providerChain_runs_le (G : Graph) (routines : Nat → Nat → Routine)
    (hook : Option (Nat → Bool)) (fuel : Nat) (cls : Nat) (st : St) :
    (providerChain G routines hook fuel cls st).1.setupRuns ≤
      st.setupRuns + 1 := by
  unfold providerChain
  by_cases hc : cls ∈ st.inited
  · rw [if_pos hc]
    exact Nat.le_succ _
  · rw [if_neg hc]
    obtain ⟨_, hle⟩ := ensureSetup_runs_le hook st
    rcases hs : ensureSetup hook st with ⟨st1, e1⟩
    rw [hs] at hle
    simp only at hle
    rcases e1 with _ | e
    · rcases hd : depthFirst G fuel cls [] [] with _ | r
      · exact hle
      · rcases r with e | v
        · exact hle
        · rcases ho : getInitializationOrder G fuel cls with _ | order
          · exact hle
          · obtain ⟨_, _, _, h4, _, _⟩ := chainLoop_state routines cls order st1
            rw [h4]
            exact hle
    · exact hle

theorem providerChain_setup_before_init (G : Graph)
    (routines : Nat → Nat → Routine) (f : Nat → Bool) (fuel : Nat)
    (cls : Nat) (st : St) (p : Nat)
    (hch : (providerChain G routines (some f) fuel cls st).1.counts p ≠
      st.counts p) :
    (providerChain G routines (some f) fuel cls st).1.setupDone = true := by
  unfold providerChain at *
  by_cases hc : cls ∈ st.inited
  · rw [if_pos hc] at *
    exact absurd rfl hch
  · rw [if_neg hc] at *
    obtain ⟨_, hsc, _, _, _⟩ := ensureSetup_preserves (some f) st
    rcases hs : ensureSetup (some f) st with ⟨st1, e1⟩
    rw [hs] at hsc hch
    simp only at hsc
    rcases e1 with _ | e
    · have hstd : st1.setupDone = true := by
        have := @ensureSetup_ok_done f st (by rw [hs])
        rw [hs] at this
        exact this
      rcases hd : depthFirst G fuel cls [] [] with _ | r
      · rw [hd] at hch
        exact absurd (by rw [hsc]) hch
      · rcases r with e | v
        · rw [hd] at hch
          exact absurd (by rw [hsc]) hch
        · rcases ho : getInitializationOrder G fuel cls with _ | order
          · rw [hd, ho] at hch
            exact absurd (by rw [hsc]) hch
          · rw [hd, ho] at hch
            obtain ⟨_, _, h3, _, _, _⟩ := chainLoop_state routines cls order st1
            rw [h3]
            exact hstd
    · exact absurd (by rw [hsc]) hch

theorem providerChain_setupError (G : Graph) (routines : Nat → Nat → Routine)
    (hook : Option (Nat → Bool)) (fuel : Nat) (cls : Nat) (st : St)
    (h : (providerChain G routines hook fuel cls st).2 = some .setupError) :
    (providerChain G routines hook fuel cls st).1.inited = st.inited ∧
    (providerChain G routines hook fuel cls st).1.counts = st.counts ∧
    (providerChain G routines hook fuel cls st).1.setupDone = false ∧
    (providerChain G routines hook fuel cls st).1.setupRuns =
      st.setupRuns + 1 ∧
    st.setupDone = false := by
  unfold providerChain at *
  by_cases hc : cls ∈ st.inited
  · rw [if_pos hc] at h
    cases h
  · rw [if_neg hc] at h ⊢
    rcases hs : ensureSetup hook st with ⟨st1, e1⟩
    rw [hs] at h
    rcases e1 with _ | e
    · exfalso
      rcases hd : depthFirst G fuel cls [] [] with _ | r <;> rw [hd] at h
      · cases h
      · rcases r with e | v
        · simp only at h
          cases Option.some.inj h
        · rcases ho : getInitializationOrder G fuel cls with _ | order <;>
            rw [ho] at h
          · cases h
          · rcases chainLoop_err_shape routines cls order st1 _ h with
              ⟨n, hn⟩ | ⟨n, hn⟩ | ⟨n, hn⟩ <;> cases hn
    · have hchar := @ensureSetup_error_char hook st e (by rw [hs])
      rw [hs] at hchar
      simp only at hchar h
      obtain ⟨rfl, h1, h2, h3, h4, h5⟩ := hchar
      exact ⟨h1, h2, h3, h4, h5⟩

theorem providerChain_circular (G : Graph) (routines : Nat → Nat → Routine)
    (hook : Option (Nat → Bool)) (fuel : Nat) (cls : Nat) (st : St)
    (n : Nat) (S : List Nat)
    (h : (providerChain G routines hook fuel cls st).2 =
      some (.circularDependency n S)) :
    (providerChain G routines hook fuel cls st).1.inited = st.inited ∧
    (providerChain G routines hook fuel cls st).1.counts = st.counts ∧
    (providerChain G routines hook fuel cls st).1.log = st.log ∧
    depthFirst G fuel cls [] [] = some (.error (n, S)) := by
  unfold providerChain at *
  by_cases hc : cls ∈ st.inited
  · rw [if_pos hc] at h
    cases h
  · rw [if_neg hc] at h ⊢
    obtain ⟨hsi, hsc, hsl, _, _⟩ := ensureSetup_preserves hook st
    rcases hs : ensureSetup hook st with ⟨st1, e1⟩
    rw [hs] at h hsi hsc hsl
    simp only at hsi hsc hsl
    rcases e1 with _ | e
    · rcases hd : depthFirst G fuel cls [] [] with _ | r <;> rw [hd] at h
      · cases h
      · rcases r with e | v
        · simp only at h ⊢
          have he := Option.some.inj h
          cases he
          exact ⟨hsi, hsc, hsl, rfl⟩
        · rcases ho : getInitializationOrder G fuel cls with _ | order <;>
            rw [ho] at h
          · cases h
          · exfalso
            rcases chainLoop_err_shape routines cls order st1 _ h with
              ⟨m, hm⟩ | ⟨m, hm⟩ | ⟨m, hm⟩ <;> cases hm
    · have hchar := @ensureSetup_error_char hook st e (by rw [hs])
      obtain ⟨rfl, _⟩ := hchar
      cases Option.some.inj h

theorem providerChain_success_inited (G : Graph)
    (routines : Nat → Nat → Routine) (hook : Option (Nat → Bool))
    (fuel : Nat) (cls : Nat) (st : St)
    (h : (providerChain G routines hook fuel cls st).2 = none) :
    cls ∈ (providerChain G routines hook fuel cls st).1.inited := by
  unfold providerChain at *
  by_cases hc : cls ∈ st.inited
  · rw [if_pos hc] at *
    exact hc
  · rw [if_neg hc] at *
    rcases hs : ensureSetup hook st with ⟨st1, e1⟩
    rw [hs] at h
    rcases e1 with _ | e
    · rcases hd : depthFirst G fuel cls [] [] with _ | r <;> rw [hd] at h
      · cases h
      · rcases r with e | v
        · cases h
        · rcases ho : getInitializationOrder G fuel cls with _ | order <;>
            rw [ho] at h
          · cases h
          · exact chainLoop_success_marks routines cls order st1 h cls
              (getInitializationOrder_mem_self G fuel cls order ho)
    · cases h


theorem guardedCall_noop (G : Graph) (routines : Nat → Nat → Routine)
    (hook : Option (Nat → Bool)) (fuel : Nat) (ctx : List Nat) {cls : Nat}
    {st : St} (h : cls ∈ st.inited) :
    guardedCall G routines hook fuel ctx cls st = (st, none) := by
  unfold guardedCall
  rw [if_pos h]

theorem guardedCall_selfdep (G : Graph) (routines : Nat → Nat → Routine)
    (hook : Option (Nat → Bool)) (fuel : Nat) {ctx : List Nat} {cls : Nat}
    {st : St} (h1 : cls ∉ st.inited) (h2 : cls ∈ ctx) :
    guardedCall G routines hook fuel ctx cls st =
      (st, some (.selfDependency cls)) := by
  unfold guardedCall raiseOnSelfDependency
  rw [if_neg h1, if_pos h2]

theorem guardedCall_chain (G : Graph) (routines : Nat → Nat → Routine)
    (hook : Option (Nat → Bool)) (fuel : Nat) {ctx : List Nat} {cls : Nat}
    {st : St} (h1 : cls ∉ st.inited) (h2 : cls ∉ ctx) :
    guardedCall G routines hook fuel ctx cls st =
      providerChain G routines hook fuel cls st := by
  unfold guardedCall raiseOnSelfDependency
  rw [if_neg h1, if_neg h2]

theorem guardedCall_preserves (G : Graph) (routines : Nat → Nat → Routine)
    (hook : Option (Nat → Bool)) (fuel : Nat) (ctx : List Nat) (cls : Nat)
    (st : St) : ∀ p ∈ st.inited,
      p ∈ (guardedCall G routines hook fuel ctx cls st).1.inited ∧
      (guardedCall G routines hook fuel ctx cls st).1.counts p =
        st.counts p := by
  intro p hp
  by_cases h1 : cls ∈ st.inited
  · rw [guardedCall_noop G routines hook fuel ctx h1]
    exact ⟨hp, rfl⟩
  · by_cases h2 : cls ∈ ctx
    · rw [guardedCall_selfdep G routines hook fuel h1 h2]
      exact ⟨hp, rfl⟩
    · rw [guardedCall_chain G routines hook fuel h1 h2]
      exact providerChain_preserves G routines hook fuel cls st p hp

/-- The empty engine state: nothing initialized, no attribute set, all
counters zero, setup not yet run. -/
def st0 : St :=
  { inited := [], counts := fun _ => 0, log := [], attrs := fun _ _ => none,
    guarded := fun _ _ => false, setupDone := false, setupRuns := 0 }

/-- Example graph: provider 2 requires 0 and 1; provider 1 requires 0
(the A/B/C scenario with A = 0, B = 1, C = 2). -/
def gABC : Graph := [(2, [0, 1]), (1, [0])]

/-- Example graph with a two-cycle 0 → 1 → 0. -/
def gCyc : Graph := [(0, [1]), (1, [0])]

/-- Init routines that always succeed. -/
def routinesOk : Nat → Nat → Routine := fun _ _ => .ok

/-- Init routines that fail with an exception on the first attempt and
succeed on every later attempt. -/
def routinesRetry : Nat → Nat → Routine := fun _ k =>
  match k with
  | 0 => .exc
  | _ + 1 => .ok

/-- Init routines that signal failure by returning `False`. -/
def routinesFalse : Nat → Nat → Routine := fun _ _ => .retFalse

/-- Init routines that call a guarded method of their own provider. -/
def routinesSelf : Nat → Nat → Routine := fun _ _ => .callOwnGuarded

/-- A setup hook that raises on its first invocation and succeeds on every
later one. -/
def hookRetry : Nat → Bool := fun k => decide (0 < k)

/-- Whether an engine error is a `ProviderInitializationError`. -/
def PErr.isPIE : PErr → Bool
  | .providerInitializationError _ _ => true
  | _ => false


instance {A B : Type} [DecidableEq A] [DecidableEq B] :
    DecidableEq (Except A B) := fun a b =>
  match a, b with
  | .error x, .error y =>
    if h : x = y then isTrue (by rw [h])
    else isFalse (by intro hh; cases hh; exact h rfl)
  | .ok x, .ok y =>
    if h : x = y then isTrue (by rw [h])
    else isFalse (by intro hh; cases hh; exact h rfl)
  | .error _, .ok _ => isFalse (by intro hh; cases hh)
  | .ok _, .error _ => isFalse (by intro hh; cases hh)



/-- State with a guarded, never-assigned attribute `0` of provider `0`. -/
def stG : St := { st0 with guarded := fun c a => decide (c = 0 ∧ a = 0) }

/-- State whose guarded attribute `0` of provider `0` already holds a value. -/
def stSet : St :=
  { stG with attrs := fun c a => if c = 0 ∧ a = 0 then some 3 else none }

/-- State with a guarded, never-assigned attribute `9` of provider `2`. -/
def stG2 : St := { st0 with guarded := fun c a => decide (c = 2 ∧ a = 9) }

/-- The state after the first access to provider `2` of the A/B/C graph. -/
def stABC : St := (guardedCall gABC routinesOk none 7 [] 2 st0).1

/-- The state after an access whose setup hook failed on its first attempt. -/
def stSetupFail : St := (guardedCall gABC routinesOk (some hookRetry) 7 [] 2 st0).1

/-- A run of the cycle check that returns a visit list certifies that the
graph reachable from the root is acyclic. -/
theorem acyclicFrom_of_ok {G : Graph} {P fuel : Nat} {v : List Nat}
    (hfuel : (univ G P).length + 1 ≤ fuel)
    (h : depthFirst G fuel P [] [] = some (.ok v)) : AcyclicFrom G P := by
  by_contra hA
  obtain ⟨e, he⟩ := (depthFirst_error_iff hfuel).mpr hA
  rw [h] at he
  exact Except.noConfusion (Option.some.inj he)

/-- The guarded read of `ProviderMetaclass.__getattribute__`, expressed
through the result of the provider chain it triggers. -/
theorem metaGetattribute_guarded (G : Graph) (routines : Nat → Nat → Routine)
    (hook : Option (Nat → Bool)) (fuel : Nat) (cls name : Nat) (st st1 : St)
    (e? : Option PErr) (hg : st.guarded cls name = true) (hni : cls ∉ st.inited)
    (hpc : providerChain G routines hook fuel cls st = (st1, e?)) :
    metaGetattribute G routines hook fuel cls name st =
      (match e? with
       | some e => (st1, Except.error e)
       | none =>
         match st1.attrs cls name with
         | none => (st1, Except.error (.attributeNotInitialized cls name))
         | some v => (st1, Except.ok v)) := by
  unfold metaGetattribute
  rw [if_pos hg, if_neg hni]
  rcases e? with _ | e
  · simp only [hpc]
  · simp only [hpc]

/-- Claim C1: for a provider `P` whose reachable dependency graph is acyclic,
`_get_initialization_order` returns a duplicate-free sequence containing
exactly the members of `{P} ∪ all_dependencies(P)` in which every declared
dependency of a member appears strictly before that member; and
`_get_all_dependencies` returns exactly the transitive closure of the
dependency relation starting at `P`, excluding `P` itself. -/
theorem claim_C1 (G : Graph) (P fuel : Nat) (hA : AcyclicFrom G P)
    (hfuel : (univ G P).length + 1 ≤ fuel) :
    (∃ order, getInitializationOrder G fuel P = some order ∧
      order.Nodup ∧ (∀ x, x ∈ order ↔ ReachStar G P x) ∧
      (∀ x ∈ order, ∀ d ∈ depsOf G x,
        d ∈ order ∧ order.indexOf d < order.indexOf x)) ∧
    (∃ allDeps, getAllDependencies G fuel P = some allDeps ∧
      allDeps.Nodup ∧ (∀ x, x ∈ allDeps ↔ (DepPath G P x ∧ x ≠ P))) :=
  ⟨getInitializationOrder_spec G P hA hfuel,
   getAllDependencies_spec G P hA hfuel⟩

/-- Witness for C1: the A/B/C graph with root `2` and fuel `7`. -/
theorem claim_C1_witness :
    AcyclicFrom gABC 2 ∧ (univ gABC 2).length + 1 ≤ 7 ∧
    ((∃ order, getInitializationOrder gABC 7 2 = some order ∧
      order.Nodup ∧ (∀ x, x ∈ order ↔ ReachStar gABC 2 x) ∧
      (∀ x ∈ order, ∀ d ∈ depsOf gABC x,
        d ∈ order ∧ order.indexOf d < order.indexOf x)) ∧
    (∃ allDeps, getAllDependencies gABC 7 2 = some allDeps ∧
      allDeps.Nodup ∧ (∀ x, x ∈ allDeps ↔ (DepPath gABC 2 x ∧ x ≠ 2)))) := by
  have hdf : depthFirst gABC 7 2 [] [] = some (.ok [1, 0, 2]) := by decide
  have hA : AcyclicFrom gABC 2 := acyclicFrom_of_ok (by decide) hdf
  exact ⟨hA, by decide, claim_C1 gABC 2 7 hA (by decide)⟩

/-- Claim C2: with sufficient fuel the cycle check raises `CircularDependency`
exactly when the graph reachable from `P` has a cycle; the reported payload
puts the offending provider on the reported stack, a dependency cycle through
it lies inside the reported stack, and every reported provider is reachable
from `P`; the chain initializer propagates the error with the initialized set
and all invocation counters unchanged; and on the concrete 2-cycle `0 ↔ 1`
the first access to either member fails this way, the reported stack names
both members, and neither ends up initialized. -/
theorem claim_C2 (G : Graph) (P fuel : Nat)
    (hfuel : (univ G P).length + 1 ≤ fuel) :
    ((∃ e, depthFirst G fuel P [] [] = some (.error e)) ↔ ¬ AcyclicFrom G P) ∧
    (∀ e, depthFirst G fuel P [] [] = some (.error e) →
      e.1 ∈ e.2 ∧ DepPathIn G e.2 e.1 e.1 ∧ ∀ x ∈ e.2, ReachStar G P x) ∧
    (∀ routines hook st n S,
      (providerChain G routines hook fuel P st).2 =
        some (.circularDependency n S) →
      (providerChain G routines hook fuel P st).1.inited = st.inited ∧
      (providerChain G routines hook fuel P st).1.counts = st.counts ∧
      depthFirst G fuel P [] [] = some (.error (n, S))) ∧
    (∀ c ∈ [0, 1],
      (guardedCall gCyc routinesOk none 6 [] c st0).1.inited = [] ∧
      ∃ n S, (guardedCall gCyc routinesOk none 6 [] c st0).2 =
          some (.circularDependency n S) ∧ 0 ∈ n :: S ∧ 1 ∈ n :: S) := by
  refine ⟨depthFirst_error_iff hfuel, ?_, ?_, ?_⟩
  · intro e he
    exact (depthFirst_sound G P fuel).1 P [] [] e .nil (Or.inl ⟨rfl, rfl⟩) he
  · intro routines hook st n S h
    obtain ⟨h1, h2, _, h4⟩ :=
      providerChain_circular G routines hook fuel P st n S h
    exact ⟨h1, h2, h4⟩
  · intro c hc
    fin_cases hc
    · exact ⟨by decide, 0, [1, 0], by decide, by decide, by decide⟩
    · exact ⟨by decide, 1, [0, 1], by decide, by decide, by decide⟩

/-- Witness for C2: the 2-cycle graph with root `0` and fuel `6`. -/
theorem claim_C2_witness :
    (univ gCyc 0).length + 1 ≤ 6 ∧
    (((∃ e, depthFirst gCyc 6 0 [] [] = some (.error e)) ↔
        ¬ AcyclicFrom gCyc 0) ∧
    (∀ e, depthFirst gCyc 6 0 [] [] = some (.error e) →
      e.1 ∈ e.2 ∧ DepPathIn gCyc e.2 e.1 e.1 ∧ ∀ x ∈ e.2, ReachStar gCyc 0 x) ∧
    (∀ routines hook st n S,
      (providerChain gCyc routines hook 6 0 st).2 =
        some (.circularDependency n S) →
      (providerChain gCyc routines hook 6 0 st).1.inited = st.inited ∧
      (providerChain gCyc routines hook 6 0 st).1.counts = st.counts ∧
      depthFirst gCyc 6 0 [] [] = some (.error (n, S))) ∧
    (∀ c ∈ [0, 1],
      (guardedCall gCyc routinesOk none 6 [] c st0).1.inited = [] ∧
      ∃ n S, (guardedCall gCyc routinesOk none 6 [] c st0).2 =
          some (.circularDependency n S) ∧ 0 ∈ n :: S ∧ 1 ∈ n :: S)) :=
  ⟨by decide, claim_C2 gCyc 0 6 (by decide)⟩

/-- Claim C3 (amended): when the ordered initialization loop started for
`cls` fails, there is a single failing provider `Q`, not initialized before
and left unmarked, whose routine ran exactly once more; every provider before
`Q` in the order ends up initialized, every provider after `Q` is untouched
(neither run nor marked, so the next access re-attempts from scratch); and
the raised error depends on the failure mode: an ordinary exception is
wrapped into `ProviderInitializationError` naming both the requested `cls`
and `Q`, while a `False` return raises `InitializeReturnedFalse` naming only
`Q`, and a self-dependent routine propagates `SelfDependency Q` unwrapped. -/
theorem claim_C3 (routines : Nat → Nat → Routine) (cls : Nat)
    (order : List Nat) (st st' : St) (e : PErr) (hnd : order.Nodup)
    (h : chainLoop routines cls order st = (st', some e)) :
    ∃ Q pre post, order = pre ++ Q :: post ∧
      Q ∉ st.inited ∧ Q ∉ st'.inited ∧
      st'.counts Q = st.counts Q + 1 ∧
      (∀ r ∈ post, st'.counts r = st.counts r ∧
        (r ∈ st'.inited ↔ r ∈ st.inited)) ∧
      (∀ r ∈ pre, r ∈ st'.inited) ∧
      ((routines Q (st.counts Q) = .exc ∧
          e = .providerInitializationError cls Q) ∨
       (routines Q (st.counts Q) = .retFalse ∧
          e = .initializeReturnedFalse Q) ∨
       (routines Q (st.counts Q) = .callOwnGuarded ∧
          e = .selfDependency Q)) :=
  chainLoop_error routines cls order st st' e hnd h

/-- Counterexample for C3 as stated: a provider whose init routine returns
`False` makes the loop raise `InitializeReturnedFalse`, which is not a
`ProviderInitializationError`, both at the loop and through the guarded-call
wrapper. -/
theorem claim_C3_counterexample :
    (chainLoop routinesFalse 0 [0] st0).2 =
      some (.initializeReturnedFalse 0) ∧
    (chainLoop routinesFalse 0 [0] st0).2.map PErr.isPIE = some false ∧
    (guardedCall [] routinesFalse none 3 [] 0 st0).2 =
      some (.initializeReturnedFalse 0) ∧
    (guardedCall [] routinesFalse none 3 [] 0 st0).2.map PErr.isPIE =
      some false := by decide

/-- Witness for C3: the single-provider order `[0]` with routines that
return `False`. -/
theorem claim_C3_witness :
    ([0] : List Nat).Nodup ∧
    chainLoop routinesFalse 0 [0] st0 =
      ((chainLoop routinesFalse 0 [0] st0).1,
        some (.initializeReturnedFalse 0)) ∧
    (∃ Q pre post, ([0] : List Nat) = pre ++ Q :: post ∧
      Q ∉ st0.inited ∧ Q ∉ (chainLoop routinesFalse 0 [0] st0).1.inited ∧
      (chainLoop routinesFalse 0 [0] st0).1.counts Q = st0.counts Q + 1 ∧
      (∀ r ∈ post, (chainLoop routinesFalse 0 [0] st0).1.counts r =
          st0.counts r ∧
        (r ∈ (chainLoop routinesFalse 0 [0] st0).1.inited ↔
          r ∈ st0.inited)) ∧
      (∀ r ∈ pre, r ∈ (chainLoop routinesFalse 0 [0] st0).1.inited) ∧
      ((routinesFalse Q (st0.counts Q) = .exc ∧
          PErr.initializeReturnedFalse 0 =
            .providerInitializationError 0 Q) ∨
       (routinesFalse Q (st0.counts Q) = .retFalse ∧
          PErr.initializeReturnedFalse 0 = .initializeReturnedFalse Q) ∨
       (routinesFalse Q (st0.counts Q) = .callOwnGuarded ∧
          PErr.initializeReturnedFalse 0 = .selfDependency Q))) := by
  have h2 : chainLoop routinesFalse 0 [0] st0 =
      ((chainLoop routinesFalse 0 [0] st0).1,
        some (.initializeReturnedFalse 0)) := by
    refine Prod.ext rfl ?_
    decide
  exact ⟨by decide, h2,
    claim_C3 routinesFalse 0 [0] st0 _ _ (by decide) h2⟩

/-- Claim C4: once a provider is marked initialized, a guarded operation on
it is a no-op — the state is returned unchanged, no error is raised and no
init routine runs (all counters of initialized providers are preserved); in
the concrete A/B/C scenario the first access to C runs the routines in the
order A, B, C exactly once each, and later guarded operations on A, B or C
change nothing. -/
theorem claim_C4 (G : Graph) (routines : Nat → Nat → Routine)
    (hook : Option (Nat → Bool)) (fuel : Nat) (ctx : List Nat) (cls : Nat)
    (st : St) (h : cls ∈ st.inited) :
    guardedCall G routines hook fuel ctx cls st = (st, none) ∧
    (∀ p ∈ st.inited,
      (guardedCall G routines hook fuel ctx cls st).1.counts p =
        st.counts p) ∧
    stABC.log = [0, 1, 2] ∧
    (∀ c ∈ [0, 1, 2], stABC.counts c = 1 ∧
      guardedCall gABC routinesOk none 7 [] c stABC = (stABC, none)) := by
  refine ⟨guardedCall_noop G routines hook fuel ctx h, ?_, by decide, ?_⟩
  · intro p hp
    exact (guardedCall_preserves G routines hook fuel ctx cls st p hp).2
  · intro c hc
    fin_cases hc
    · exact ⟨by decide, guardedCall_noop _ _ _ _ _ (by decide)⟩
    · exact ⟨by decide, guardedCall_noop _ _ _ _ _ (by decide)⟩
    · exact ⟨by decide, guardedCall_noop _ _ _ _ _ (by decide)⟩

/-- Witness for C4: provider `2` is initialized after the first access to it,
and a second guarded operation on it is a no-op. -/
theorem claim_C4_witness :
    2 ∈ stABC.inited ∧
    (guardedCall gABC routinesOk none 7 [] 2 stABC = (stABC, none) ∧
    (∀ p ∈ stABC.inited,
      (guardedCall gABC routinesOk none 7 [] 2 stABC).1.counts p =
        stABC.counts p) ∧
    stABC.log = [0, 1, 2] ∧
    (∀ c ∈ [0, 1, 2], stABC.counts c = 1 ∧
      guardedCall gABC routinesOk none 7 [] c stABC = (stABC, none))) :=
  ⟨by decide, claim_C4 gABC routinesOk none 7 [] 2 stABC (by decide)⟩

/-- Claim C5: an invocation of a guarded method of a not-yet-initialized
provider from inside that provider's own init routine raises `SelfDependency`
and returns the state entirely unchanged — in particular before any
dependency initialization for the inner call; concretely, a provider whose
init routine calls one of its own guarded methods fails with
`SelfDependency` and is left unmarked. -/
theorem claim_C5 (G : Graph) (routines : Nat → Nat → Routine)
    (hook : Option (Nat → Bool)) (fuel : Nat) (ctx : List Nat) (cls : Nat)
    (st : St) (h1 : cls ∉ st.inited) (h2 : cls ∈ ctx) :
    guardedCall G routines hook fuel ctx cls st =
      (st, some (.selfDependency cls)) ∧
    (guardedCall gABC routinesSelf none 7 [] 0 st0).2 =
      some (.selfDependency 0) ∧
    (guardedCall gABC routinesSelf none 7 [] 0 st0).1.inited = [] ∧
    (guardedCall gABC routinesSelf none 7 [] 0 st0).1.counts 0 = 1 :=
  ⟨guardedCall_selfdep G routines hook fuel h1 h2,
   by decide, by decide, by decide⟩

/-- Witness for C5: a guarded call on provider `0` made while `0`'s own init
frame is on the stack. -/
theorem claim_C5_witness :
    0 ∉ st0.inited ∧ 0 ∈ [0] ∧
    (guardedCall gABC routinesOk none 7 [0] 0 st0 =
      (st0, some (.selfDependency 0)) ∧
    (guardedCall gABC routinesSelf none 7 [] 0 st0).2 =
      some (.selfDependency 0) ∧
    (guardedCall gABC routinesSelf none 7 [] 0 st0).1.inited = [] ∧
    (guardedCall gABC routinesSelf none 7 [] 0 st0).1.counts 0 = 1) :=
  ⟨by decide, by decide,
   claim_C5 gABC routinesOk none 7 [0] 0 st0 (by decide) (by decide)⟩

/-- Claim C6 (amended): a class-attribute assignment through the metaclass
always succeeds — it stores the value and removes the name from the guarded
set, whether or not the attribute was ever set and regardless of the caller —
while the descriptor protocol of `GuardedAttribute.__set__` accepts a write
exactly when a frame of the owning provider's init routine is on the stack,
rejecting every outside write with `GuardedAttributeAssignment` (leaving the
stored value and the guarded set unchanged) no matter whether the attribute
was previously set. -/
theorem claim_C6 (ctx : List Nat) (cls name v : Nat) (st : St) :
    (metaSetattr cls name v st).attrs cls name = some v ∧
    (metaSetattr cls name v st).guarded cls name = false ∧
    (metaSetattr cls name v st).inited = st.inited ∧
    (guardedAttributeSet ctx cls name v st).2 =
      (if cls ∈ ctx then none
       else some (.guardedAttributeAssignment cls name)) ∧
    (guardedAttributeSet ctx cls name v st).1.attrs cls name =
      (if cls ∈ ctx then some v else st.attrs cls name) ∧
    (guardedAttributeSet ctx cls name v st).1.guarded = st.guarded := by
  refine ⟨by simp [metaSetattr], ?_, rfl, ?_, ?_, ?_⟩
  · by_cases hg : st.guarded cls name
    · simp [metaSetattr, hg]
    · simp only [Bool.not_eq_true] at hg
      simp [metaSetattr, hg]
  · by_cases hc : cls ∈ ctx
    · simp [guardedAttributeSet, hc]
    · simp [guardedAttributeSet, hc]
  · by_cases hc : cls ∈ ctx
    · simp [guardedAttributeSet, hc]
    · simp [guardedAttributeSet, hc]
  · by_cases hc : cls ∈ ctx
    · simp [guardedAttributeSet, hc]
    · simp [guardedAttributeSet, hc]

/-- Counterexample for C6 as stated: on a guarded, never-assigned attribute,
the metaclass write path taken by a plain class-attribute assignment from
outside any init routine succeeds (storing the value and unguarding the
name) instead of raising; and on an attribute that has already been set
once, the descriptor write path still rejects an outside write instead of
being permanently unguarded. -/
theorem claim_C6_counterexample :
    stG.guarded 0 0 = true ∧ stG.attrs 0 0 = none ∧
    (metaSetattr 0 0 5 stG).attrs 0 0 = some 5 ∧
    (metaSetattr 0 0 5 stG).guarded 0 0 = false ∧
    stSet.attrs 0 0 = some 3 ∧
    (guardedAttributeSet [] 0 0 5 stSet).2 =
      some (.guardedAttributeAssignment 0 0) ∧
    (guardedAttributeSet [] 0 0 5 stSet).1.attrs 0 0 = some 3 := by decide

/-- Claim C7: a read of a guarded attribute of a not-yet-initialized provider
first runs the provider chain exactly like a guarded method call; an error of
the chain propagates; on success the provider is marked initialized, and the
read then raises `AttributeNotInitialized` when the attribute is still absent
— even though the provider is now initialized — and returns the stored value
otherwise; concretely, reading guarded attribute `9` of provider `2` runs the
full A/B/C initialization and still fails with `AttributeNotInitialized`. -/
theorem claim_C7 (G : Graph) (routines : Nat → Nat → Routine)
    (hook : Option (Nat → Bool)) (fuel : Nat) (cls name : Nat) (st : St)
    (hg : st.guarded cls name = true) (hni : cls ∉ st.inited) :
    (∀ e, (providerChain G routines hook fuel cls st).2 = some e →
      metaGetattribute G routines hook fuel cls name st =
        ((providerChain G routines hook fuel cls st).1, .error e)) ∧
    ((providerChain G routines hook fuel cls st).2 = none →
      cls ∈ (providerChain G routines hook fuel cls st).1.inited ∧
      ((providerChain G routines hook fuel cls st).1.attrs cls name = none →
        metaGetattribute G routines hook fuel cls name st =
          ((providerChain G routines hook fuel cls st).1,
            .error (.attributeNotInitialized cls name))) ∧
      (∀ v,
        (providerChain G routines hook fuel cls st).1.attrs cls name =
          some v →
        metaGetattribute G routines hook fuel cls name st =
          ((providerChain G routines hook fuel cls st).1, .ok v))) ∧
    (metaGetattribute gABC routinesOk none 7 2 9 stG2).2 =
      .error (.attributeNotInitialized 2 9) ∧
    2 ∈ (metaGetattribute gABC routinesOk none 7 2 9 stG2).1.inited ∧
    (metaGetattribute gABC routinesOk none 7 2 9 stG2).1.log = [0, 1, 2] := by
  refine ⟨?_, ?_, by decide, by decide, by decide⟩
  · intro e he
    have h1 : providerChain G routines hook fuel cls st =
        ((providerChain G routines hook fuel cls st).1, some e) :=
      Prod.ext rfl he
    rw [metaGetattribute_guarded G routines hook fuel cls name st _ _
      hg hni h1]
  · intro hnone
    have h1 : providerChain G routines hook fuel cls st =
        ((providerChain G routines hook fuel cls st).1, none) :=
      Prod.ext rfl hnone
    refine ⟨providerChain_success_inited G routines hook fuel cls st hnone,
      ?_, ?_⟩
    · intro ha
      rw [metaGetattribute_guarded G routines hook fuel cls name st _ _
        hg hni h1, ha]
    · intro v hv
      rw [metaGetattribute_guarded G routines hook fuel cls name st _ _
        hg hni h1, hv]

/-- Witness for C7: guarded attribute `9` of provider `2` of the A/B/C
graph, starting from the empty state. -/
theorem claim_C7_witness :
    stG2.guarded 2 9 = true ∧ 2 ∉ stG2.inited ∧
    ((∀ e, (providerChain gABC routinesOk none 7 2 stG2).2 = some e →
      metaGetattribute gABC routinesOk none 7 2 9 stG2 =
        ((providerChain gABC routinesOk none 7 2 stG2).1, .error e)) ∧
    ((providerChain gABC routinesOk none 7 2 stG2).2 = none →
      2 ∈ (providerChain gABC routinesOk none 7 2 stG2).1.inited ∧
      ((providerChain gABC routinesOk none 7 2 stG2).1.attrs 2 9 = none →
        metaGetattribute gABC routinesOk none 7 2 9 stG2 =
          ((providerChain gABC routinesOk none 7 2 stG2).1,
            .error (.attributeNotInitialized 2 9))) ∧
      (∀ v, (providerChain gABC routinesOk none 7 2 stG2).1.attrs 2 9 =
          some v →
        metaGetattribute gABC routinesOk none 7 2 9 stG2 =
          ((providerChain gABC routinesOk none 7 2 stG2).1, .ok v))) ∧
    (metaGetattribute gABC routinesOk none 7 2 9 stG2).2 =
      .error (.attributeNotInitialized 2 9) ∧
    2 ∈ (metaGetattribute gABC routinesOk none 7 2 9 stG2).1.inited ∧
    (metaGetattribute gABC routinesOk none 7 2 9 stG2).1.log = [0, 1, 2]) :=
  ⟨by decide, by decide,
   claim_C7 gABC routinesOk none 7 2 9 stG2 (by decide) (by decide)⟩

/-- Claim C8: when setup has already completed, no access runs the hook
again; the hook completes before any init routine runs (whenever an access
changed some invocation counter, setup is marked done); an access whose hook
fails raises `SetupError`, initializes nothing, leaves the hook marked
not-yet-run and records the attempt; and in the concrete retry scenario the
first access fails with `SetupError` having initialized nothing, while the
second access retries the hook and completes the whole A/B/C chain. -/
theorem claim_C8 (G : Graph) (routines : Nat → Nat → Routine)
    (hook : Option (Nat → Bool)) (f : Nat → Bool) (fuel cls : Nat)
    (st : St) :
    (st.setupDone = true →
      (providerChain G routines hook fuel cls st).1.setupRuns =
        st.setupRuns ∧
      (providerChain G routines hook fuel cls st).1.setupDone = true) ∧
    (∀ p, (providerChain G routines (some f) fuel cls st).1.counts p ≠
        st.counts p →
      (providerChain G routines (some f) fuel cls st).1.setupDone = true) ∧
    ((providerChain G routines hook fuel cls st).2 = some .setupError →
      (providerChain G routines hook fuel cls st).1.inited = st.inited ∧
      (providerChain G routines hook fuel cls st).1.counts = st.counts ∧
      (providerChain G routines hook fuel cls st).1.setupDone = false ∧
      (providerChain G routines hook fuel cls st).1.setupRuns =
        st.setupRuns + 1) ∧
    (guardedCall gABC routinesOk (some hookRetry) 7 [] 2 st0).2 =
      some .setupError ∧
    stSetupFail.inited = [] ∧ stSetupFail.log = [] ∧
    stSetupFail.setupRuns = 1 ∧ stSetupFail.setupDone = false ∧
    (guardedCall gABC routinesOk (some hookRetry) 7 [] 2 stSetupFail).2 =
      none ∧
    (guardedCall gABC routinesOk (some hookRetry) 7 [] 2
        stSetupFail).1.setupRuns = 2 ∧
    (guardedCall gABC routinesOk (some hookRetry) 7 [] 2
        stSetupFail).1.setupDone = true ∧
    (guardedCall gABC routinesOk (some hookRetry) 7 [] 2
        stSetupFail).1.inited = [2, 1, 0] ∧
    (guardedCall gABC routinesOk (some hookRetry) 7 [] 2
        stSetupFail).1.log = [0, 1, 2] := by
  refine ⟨?_, ?_, ?_, by decide, by decide, by decide, by decide, by decide,
    by decide, by decide, by decide, by decide, by decide⟩
  · intro hdone
    exact providerChain_setup_once G routines hook fuel cls st hdone
  · intro p hp
    exact providerChain_setup_before_init G routines f fuel cls st p hp
  · intro h
    obtain ⟨h1, h2, h3, h4, _⟩ :=
      providerChain_setupError G routines hook fuel cls st h
    exact ⟨h1, h2, h3, h4⟩

/-- Claim C9: after the user `initialize()` body returns, `_initialize_impl`
always invokes `ping()`; the provider is marked initialized exactly when
`ping()` returns `True`; a raising or non-`True` `ping()` yields a
`ProviderInitializationError` and leaves the provider unmarked. -/
theorem claim_C9 (pb : PingBeh) (cls : Nat) :
    (initializeImpl .returns pb cls false).pingCalled = true ∧
    initializeImpl .returns (.gives true) cls false = ⟨true, true, none⟩ ∧
    initializeImpl .returns (.gives false) cls false =
      ⟨false, true, some (.providerInitializationError cls cls)⟩ ∧
    initializeImpl .returns .raises cls false =
      ⟨false, true, some (.providerInitializationError cls cls)⟩ ∧
    ((initializeImpl .returns pb cls false).initialized = true ↔
      pb = .gives true) := by
  refine ⟨?_, rfl, rfl, rfl, ?_⟩
  · rcases pb with b | _
    · rcases b <;> rfl
    · rfl
  · rcases pb with b | _
    · rcases b <;> simp [initializeImpl]
    · simp [initializeImpl]

/-- Claim C10: the metaclass rebinds the user-supplied entry point under the
engine's private name and installs a stub under the public name; calling the
stub raises unconditionally (`InitCalledDirectly`, or the prototype's
`RuntimeError`) and changes no engine state, whatever the provider's state
is; every other namespace entry passes through unchanged. -/
theorem claim_C10 (ns : List (String × NsVal)) (v w : NsVal) (attr : String)
    (provider : Nat) (st : St) (hne : attr ≠ "__init__")
    (hne2 : attr ≠ "initialize") :
    plugCall provider st = (st, some (.initCalledDirectly provider)) ∧
    plugCallProto provider st = (st, some (.runtimeError provider)) ∧
    metaNew (("__init__", v) :: ns) =
      ("__provider_init__", v) :: ("__init__", NsVal.plugVal) :: metaNew ns ∧
    metaNewProto (("initialize", v) :: ns) =
      ("__provider_initialize__", v) :: ("initialize", NsVal.plugVal) ::
        metaNewProto ns ∧
    metaNew ((attr, w) :: ns) = (attr, w) :: metaNew ns ∧
    metaNewProto ((attr, w) :: ns) = (attr, w) :: metaNewProto ns := by
  refine ⟨rfl, rfl, by simp [metaNew], by simp [metaNewProto], ?_, ?_⟩
  · simp [metaNew, hne]
  · simp [metaNewProto, hne2]

/-- Witness for C10: a plain attribute `"x"` beside the rebound entry
points. -/
theorem claim_C10_witness :
    ("x" : String) ≠ "__init__" ∧ ("x" : String) ≠ "initialize" ∧
    (plugCall 0 st0 = (st0, some (.initCalledDirectly 0)) ∧
    plugCallProto 0 st0 = (st0, some (.runtimeError 0)) ∧
    metaNew [("__init__", NsVal.plugVal)] =
      ("__provider_init__", NsVal.plugVal) ::
        ("__init__", NsVal.plugVal) :: metaNew [] ∧
    metaNewProto [("initialize", NsVal.plugVal)] =
      ("__provider_initialize__", NsVal.plugVal) ::
        ("initialize", NsVal.plugVal) :: metaNewProto [] ∧
    metaNew [("x", NsVal.plainVal 1)] =
      ("x", NsVal.plainVal 1) :: metaNew [] ∧
    metaNewProto [("x", NsVal.plainVal 1)] =
      ("x", NsVal.plainVal 1) :: metaNewProto []) :=
  ⟨by decide, by decide,
   claim_C10 [] NsVal.plugVal (NsVal.plainVal 1) "x" 0 st0
     (by decide) (by decide)⟩

end SingletonProvider
